import Mathlib

/-!
Verification of the pytube signature-patching subsystem.

This file gives a shallow embedding of the code in src/pytube/extract.py
(the manifest patcher apply_signature) and src/pytube/helpers.py
(safe_filename), together with a model of the Python standard-library URL
utilities those functions call (urllib.parse.urlparse, parse_qs, urlencode,
including percent-encoding over UTF-8), and a model of the cipher engine
described by the specification (the repository's cipher module is not under
src/: extract.py only calls Cipher(js=js)).
-/

set_option autoImplicit false
set_option maxRecDepth 8192

namespace PyTube

/-! ## Basic character and list utilities -/

/-- Membership of a character in a list, as a Boolean. -/
def charIn (c : Char) (l : List Char) : Bool :=
  l.any (fun d => d = c)

/-- Boolean substring containment on character lists: models the Python
expression "needle in haystack" on strings. -/
def containsSubstrL (needle hay : List Char) : Bool :=
  hay.tails.any (fun t => needle.isPrefixOf t)

/-- Boolean substring containment on strings. -/
def containsSubstr (needle hay : String) : Bool :=
  containsSubstrL needle.toList hay.toList

/-- Split a character list at the first character satisfying p.  Returns the
prefix before the split point and, when a split character was found, the
remainder after it (the split character itself is dropped). -/
def splitFirstP (p : Char → Bool) : List Char → List Char × Option (List Char)
  | [] => ([], none)
  | c :: rest =>
    if p c then ([], some rest)
    else
      let r := splitFirstP p rest
      (c :: r.1, r.2)

/-- Split a character list on every occurrence of the separator, the way
Python str.split does: the result is always nonempty, and separators at the
ends produce empty components. -/
def splitAllOn (sep : Char) : List Char → List (List Char)
  | [] => [[]]
  | c :: rest =>
    match splitAllOn sep rest with
    | [] => [[c]]
    | h :: t => if c = sep then [] :: h :: t else (c :: h) :: t

/-! ## Percent-encoding (urllib.parse.quote_plus / unquote), modelling the
UTF-8-based encoding used by CPython. -/

/-- Uppercase hexadecimal digit for a value below 16. -/
def hexDigitChar (n : Nat) : Char :=
  if n < 10 then Char.ofNat (48 + n) else Char.ofNat (55 + n)

/-- Value of a hexadecimal digit character (either case), if it is one. -/
def hexVal (c : Char) : Option Nat :=
  if 48 ≤ c.toNat ∧ c.toNat ≤ 57 then some (c.toNat - 48)
  else if 65 ≤ c.toNat ∧ c.toNat ≤ 70 then some (c.toNat - 55)
  else if 97 ≤ c.toNat ∧ c.toNat ≤ 102 then some (c.toNat - 87)
  else none

/-- UTF-8 byte sequence of a Unicode code point. -/
def utf8Bytes (n : Nat) : List Nat :=
  if n < 0x80 then [n]
  else if n < 0x800 then [0xC0 + n / 0x40, 0x80 + n % 0x40]
  else if n < 0x10000 then
    [0xE0 + n / 0x1000, 0x80 + n / 0x40 % 0x40, 0x80 + n % 0x40]
  else
    [0xF0 + n / 0x40000, 0x80 + n / 0x1000 % 0x40, 0x80 + n / 0x40 % 0x40,
      0x80 + n % 0x40]

/-- The characters urllib.parse.quote never encodes (the "always safe" set
with the default safe argument of quote_plus, which is empty). -/
def isSafeChar (c : Char) : Bool :=
  c.isAlphanum || c = '_' || c = '.' || c = '-' || c = '~'

/-- Percent-encode one byte as a three-character sequence. -/
def percentHex (b : Nat) : List Char :=
  ['%', hexDigitChar (b / 16), hexDigitChar (b % 16)]

/-- Encoding of a single character under urllib.parse.quote with an empty
safe set: safe characters pass through, all others are percent-encoded
byte-by-byte over their UTF-8 encoding. -/
def quoteChar (c : Char) : List Char :=
  if isSafeChar c then [c]
  else (utf8Bytes c.toNat).flatMap percentHex

/-- Encoding of a single character under quote_plus: a space becomes a plus
sign, everything else is encoded as by quote. -/
def quotePlusChar (c : Char) : List Char :=
  if c = ' ' then ['+'] else quoteChar c

/-- urllib.parse.quote_plus on a character list. -/
def quotePlusL (l : List Char) : List Char :=
  l.flatMap quotePlusChar

/-- The Unicode replacement character, produced by decoding errors under the
errors="replace" policy that parse_qs uses. -/
def replacementChar : Char := Char.ofNat 0xFFFD

/-- Mid-sequence state of the UTF-8 decoder: the admissible range of the
next byte, the number of continuation bytes still expected (including the
next one), and the value accumulated so far. -/
structure Utf8State where
  lo : Nat
  hi : Nat
  missing : Nat
  acc : Nat
  deriving Repr, DecidableEq

/-- Decoder transition from the initial state on one byte: characters
emitted, and the state entered for a valid lead byte.  The per-lead ranges
for the second byte implement the usual restrictions (no overlong forms, no
surrogates, nothing above U+10FFFF), the policy CPython's
errors="replace" decoding follows. -/
def utf8Step1 (b : Nat) : List Char × Option Utf8State :=
  if b < 0x80 then ([Char.ofNat b], none)
  else if 0xC2 ≤ b ∧ b ≤ 0xDF then ([], some ⟨0x80, 0xBF, 1, b - 0xC0⟩)
  else if b = 0xE0 then ([], some ⟨0xA0, 0xBF, 2, 0⟩)
  else if 0xE1 ≤ b ∧ b ≤ 0xEC then ([], some ⟨0x80, 0xBF, 2, b - 0xE0⟩)
  else if b = 0xED then ([], some ⟨0x80, 0x9F, 2, 0xD⟩)
  else if 0xEE ≤ b ∧ b ≤ 0xEF then ([], some ⟨0x80, 0xBF, 2, b - 0xE0⟩)
  else if b = 0xF0 then ([], some ⟨0x90, 0xBF, 3, 0⟩)
  else if 0xF1 ≤ b ∧ b ≤ 0xF3 then ([], some ⟨0x80, 0xBF, 3, b - 0xF0⟩)
  else if b = 0xF4 then ([], some ⟨0x80, 0x8F, 3, 4⟩)
  else ([replacementChar], none)

/-- Incremental UTF-8 decoder with replacement on error, modelling
bytes.decode("utf-8", errors="replace"): one replacement character per
rejected or truncated prefix, and the offending byte is reconsidered as a
fresh start. -/
def utf8SM : List Nat → Option Utf8State → List Char
  | [], none => []
  | [], some _ => [replacementChar]
  | b :: rest, none =>
    let s := utf8Step1 b
    s.1 ++ utf8SM rest s.2
  | b :: rest, some st =>
    if st.lo ≤ b ∧ b ≤ st.hi then
      if st.missing ≤ 1 then
        Char.ofNat (st.acc * 0x40 + (b - 0x80)) :: utf8SM rest none
      else utf8SM rest (some ⟨0x80, 0xBF, st.missing - 1, st.acc * 0x40 + (b - 0x80)⟩)
    else
      let s := utf8Step1 b
      replacementChar :: (s.1 ++ utf8SM rest s.2)

/-- Decode a byte sequence. -/
def utf8Decode (bs : List Nat) : List Char :=
  utf8SM bs none

/-- Decode a pending run of percent-decoded bytes (stored reversed). -/
def flushBytes (pending : List Nat) : List Char :=
  utf8Decode pending.reverse

/-- Mid-sequence state of unquote's percent scanner: nothing pending, a
percent sign seen, or a percent sign and one hex digit seen. -/
inductive PctState where
  | normal
  | afterPct
  | afterHex (c1 : Char) (h1 : Nat)
  deriving Repr, DecidableEq

/-- Core of urllib.parse.unquote: consecutive percent-escapes are collected
into a byte run (pend, reversed) and UTF-8-decoded together; everything
else passes through; an incomplete escape is emitted literally. -/
def unquoteSM : List Char → PctState → List Nat → List Char
  | [], .normal, pend => flushBytes pend
  | [], .afterPct, pend => flushBytes pend ++ ['%']
  | [], .afterHex c1 _, pend => flushBytes pend ++ ['%', c1]
  | x :: rest, .normal, pend =>
    if x = '%' then unquoteSM rest .afterPct pend
    else flushBytes pend ++ x :: unquoteSM rest .normal []
  | x :: rest, .afterPct, pend =>
    match hexVal x with
    | some h1 => unquoteSM rest (.afterHex x h1) pend
    | none =>
      if x = '%' then flushBytes pend ++ '%' :: unquoteSM rest .afterPct []
      else flushBytes pend ++ '%' :: x :: unquoteSM rest .normal []
  | x :: rest, .afterHex c1 h1, pend =>
    match hexVal x with
    | some h2 => unquoteSM rest .normal ((h1 * 16 + h2) :: pend)
    | none =>
      if x = '%' then
        flushBytes pend ++ '%' :: c1 :: unquoteSM rest .afterPct []
      else flushBytes pend ++ '%' :: c1 :: x :: unquoteSM rest .normal []

/-- urllib.parse.unquote on a character list. -/
def unquoteL (l : List Char) : List Char :=
  unquoteSM l .normal []

/-- The plus-to-space replacement parse_qsl applies before unquoting. -/
def plusToSpace (c : Char) : Char :=
  if c = '+' then ' ' else c

/-- unquote_plus: replace plus signs by spaces, then percent-decode. -/
def unquote_plus (l : List Char) : String :=
  (unquoteL (l.map plusToSpace)).asString

/-! ## Query-string parsing and encoding
(urllib.parse.parse_qsl / parse_qs / urlencode) -/

/-- One name-value component of a query string, as parse_qsl treats it:
an empty component, a component without an equals sign, and a component
with an empty value are all skipped; name and value are unquoted with
unquote_plus. -/
def parseQsComponent (comp : List Char) : Option (String × String) :=
  if comp.isEmpty then none
  else
    match splitFirstP (fun c => c = '=') comp with
    | (_, none) => none
    | (nm, some v) =>
      if v.isEmpty then none
      else some (unquote_plus nm, unquote_plus v)

/-- urllib.parse.parse_qsl with default arguments: split on ampersands and
parse each component. -/
def parse_qsl (q : List Char) : List (String × String) :=
  (splitAllOn '&' q).filterMap parseQsComponent

/-- Append one value under a key in the insertion-ordered dict of value
lists that parse_qs builds. -/
def qsInsert (d : List (String × List String)) (k : String) (v : String) :
    List (String × List String) :=
  match d with
  | [] => [(k, [v])]
  | kv :: rest =>
    if kv.1 = k then (kv.1, kv.2 ++ [v]) :: rest else kv :: qsInsert rest k v

/-- urllib.parse.parse_qs: parse with parse_qsl and group the pairs into a
dict of value lists, keys in order of first occurrence. -/
def parse_qs (q : List Char) : List (String × List String) :=
  (parse_qsl q).foldl (fun d kv => qsInsert d kv.1 kv.2) []

/-- The dict comprehension in apply_signature that keeps only the first
value of each parameter. -/
def collapseValues (l : List (String × List String)) : List (String × String) :=
  l.map (fun kv => (kv.1, kv.2.headD ""))

/-- Python dict assignment d[k] = v on an insertion-ordered association
list: replace in place when the key exists, append otherwise. -/
def dictSet : List (String × String) → String → String → List (String × String)
  | [], k, v => [(k, v)]
  | kv :: rest, k, v =>
    if kv.1 = k then (k, v) :: rest else kv :: dictSet rest k v

/-- Python dict lookup d.get(k) on an association list. -/
def dictGet (l : List (String × String)) (k : String) : Option String :=
  (l.find? (fun kv => kv.1 == k)).map (fun kv => kv.2)

/-- Python membership test "k in d.keys()". -/
def hasKeyD (l : List (String × String)) (k : String) : Bool :=
  l.any (fun kv => kv.1 == k)

/-- Join encoded key-value pairs with ampersands. -/
def joinAmp : List (List Char) → List Char
  | [] => []
  | [x] => x
  | x :: y :: rest => x ++ '&' :: joinAmp (y :: rest)

/-- One key-value pair as encoded by urllib.parse.urlencode. -/
def encodePair (kv : String × String) : List Char :=
  quotePlusL kv.1.toList ++ '=' :: quotePlusL kv.2.toList

/-- urllib.parse.urlencode with default arguments on an insertion-ordered
dict of string values: quote_plus each key and value. -/
def urlencodeL (qp : List (String × String)) : List Char :=
  joinAmp (qp.map encodePair)

/-! ## URL splitting (urllib.parse.urlparse) -/

/-- Result of urlsplit/urlparse restricted to the fields apply_signature
reads: scheme, netloc, path, query, fragment. -/
structure ParseResult where
  scheme : List Char
  netloc : List Char
  path : List Char
  query : List Char
  fragment : List Char
  deriving Repr, DecidableEq

/-- The characters CPython accepts inside a URL scheme. -/
def schemeChar (c : Char) : Bool :=
  c.isAlphanum || c = '+' || c = '-' || c = '.'

/-- CPython validation of the text before the first colon: nonempty, begins
with an ASCII letter, and contains only scheme characters. -/
def validSchemePre (l : List Char) : Bool :=
  match l with
  | [] => false
  | c :: _ => c.isAlpha && l.all schemeChar

/-- Scheme extraction of urlsplit: take the text before the first colon when
it validates as a scheme (lowercasing it), otherwise leave the URL whole. -/
def splitScheme (l : List Char) : List Char × List Char :=
  match splitFirstP (fun c => c = ':') l with
  | (pre, some post) =>
    if validSchemePre pre then (pre.map Char.toLower, post) else ([], l)
  | (_, none) => ([], l)

/-- Netloc extraction of urlsplit: after a double slash, the netloc extends
to the next slash, question mark or hash. -/
def splitNetloc (l : List Char) : List Char × List Char :=
  match l with
  | c1 :: c2 :: rest =>
    if c1 = '/' ∧ c2 = '/' then
      rest.span (fun c => !(c = '/' || c = '?' || c = '#'))
    else ([], c1 :: c2 :: rest)
  | _ => ([], l)

/-- urllib.parse.urlsplit on a character list, following the CPython order:
scheme, then netloc, then fragment, then query. -/
def urlsplitL (url : List Char) : ParseResult :=
  let s := splitScheme url
  let n := splitNetloc s.2
  let f := splitFirstP (fun c => c = '#') n.2
  let q := splitFirstP (fun c => c = '?') f.1
  ⟨s.1, n.1, q.1, q.2.getD [], f.2.getD []⟩

/-- Parameter stripping in urlparse: when the last path segment contains a
semicolon, the path ends before the first semicolon of that segment. -/
def splitSemiSeg (p : List Char) : List Char × List Char :=
  if charIn '/' p then
    let rev := p.reverse
    let s := rev.span (fun c => !(c = '/'))
    let seg := s.1.reverse
    let pre := s.2.reverse
    match splitFirstP (fun c => c = ';') seg with
    | (a, some ps) => (pre ++ a, ps)
    | (_, none) => (p, [])
  else
    match splitFirstP (fun c => c = ';') p with
    | (a, some ps) => (a, ps)
    | (_, none) => (p, [])

/-- urllib.parse.urlparse on a character list: urlsplit, then strip path
parameters (which apply_signature discards, since it only reads scheme,
netloc, path and query). -/
def urlparseL (url : List Char) : ParseResult :=
  let r := urlsplitL url
  if charIn ';' r.path then { r with path := (splitSemiSeg r.path).1 } else r

/-- urllib.parse.urlparse on a string. -/
def urlparse (url : String) : ParseResult :=
  urlparseL url.toList

/-! ## Errors

Exceptions that can escape apply_signature.  LiveStreamError is the exception
the code raises for unavailable live streams; the specification calls the
same error LiveStreamUnavailableError.  KeyError and UnboundLocalError are
the Python built-ins raised by dict indexing and by reading the url local
before its first assignment.  The remaining constructors are the cipher
errors named by the specification. -/

inductive PyErr where
  | keyError (key : String)
  | unboundLocal (name : String)
  | liveStream (reason : String)
  | patternDrift (which : String)
  | unsupportedOp (key : String)
  | unbalancedBlock
  | evalTimeout
  deriving Repr, DecidableEq

/-! ## Data model of the manifest and video info -/

/-- One stream-manifest entry, restricted to the keys apply_signature reads:
url, the ciphered signature token s, and itag.  A field holding none models
the key being absent from the Python dict. -/
structure StreamEntry where
  url : Option String
  s : Option String
  itag : Option String
  deriving Repr, DecidableEq

/-- A default entry used with List.getD when stating theorems about entry
positions that are known to be in range. -/
def emptyEntry : StreamEntry :=
  ⟨none, none, none⟩

/-- The part of vid_info that apply_signature reads:
vid_info.get("playabilityStatus", dict()).get("liveStreamability").
A none models the key being absent. -/
structure VidInfo where
  liveStreamability : Option String
  deriving Repr, DecidableEq

/-- Python truthiness of the liveStreamability lookup: None and the empty
string are falsy, everything else is truthy. -/
def isLiveStream (vi : VidInfo) : Bool :=
  match vi.liveStreamability with
  | none => false
  | some v => v != ""

/-! ## The cipher interface used by the patcher

The Cipher class is not under src/ (extract.py only constructs it), so the
patcher is stated against this record of its two methods.  get_signature is
total (the specification says signature application is a pure function);
calculate_n can fail (evaluation budget, missing n-transform). -/

structure CipherFns where
  get_signature : String → String
  calculate_n : List Char → Except PyErr String

/-! ## The manifest patcher (apply_signature in src/pytube/extract.py) -/

/-- The pre-signed skip test of apply_signature:
"signature" in url or ("s" not in stream and ("&sig=" in url or "&lsig=" in url)). -/
def preSignedCheck (e : StreamEntry) (u : String) : Bool :=
  containsSubstr "signature" u ||
    (e.s.isNone && (containsSubstr "&sig=" u || containsSubstr "&lsig=" u))

/-- An entry whose own URL passes the pre-signed skip test. -/
def presignedEntry (e : StreamEntry) : Bool :=
  match e.url with
  | some u => preSignedCheck e u
  | none => false

/-- Build the final query dict: collapse each parameter to its first value,
set sig to the descrambled signature, and unless ratebypass is among the
keys, replace n by the ciphered value of its character list (raising
KeyError when the n parameter is missing, as query_params['n'] does). -/
def buildQueryParams (c : CipherFns) (signature : String) (q : List Char) :
    Except PyErr (List (String × String)) :=
  let qp0 := collapseValues (parse_qs q)
  let qp1 := dictSet qp0 "sig" signature
  if hasKeyD qp1 "ratebypass" then .ok qp1
  else
    match dictGet qp1 "n" with
    | none => .error (.keyError "n")
    | some n0 =>
      match c.calculate_n n0.toList with
      | .error er => .error er
      | .ok newN => .ok (dictSet qp1 "n" newN)

/-- The f-string rebuilding the URL:
scheme://netloc path ? urlencode(query_params). -/
def rebuildUrl (pr : ParseResult) (qp : List (String × String)) : String :=
  (pr.scheme ++ ':' :: '/' :: '/' :: pr.netloc ++ pr.path ++
    '?' :: urlencodeL qp).asString

/-- Descrambling of one entry once its URL u and signature token sTok are in
hand: compute the signature, read stream["itag"] (KeyError when absent, as
the logging call does), parse the URL, build the final query parameters and
rebuild the URL.  Returns the updated entry together with the new value of
the url loop variable. -/
def descramble (c : CipherFns) (e : StreamEntry) (u : String) (sTok : String) :
    Except PyErr (StreamEntry × Option String) :=
  let signature := c.get_signature sTok
  match e.itag with
  | none => .error (.keyError "itag")
  | some _ =>
    let pr := urlparse u
    match buildQueryParams c signature pr.query with
    | .error er => .error er
    | .ok qp =>
      let newUrl := rebuildUrl pr qp
      .ok ({ e with url := some newUrl }, some newUrl)

/-- Processing of one entry once the url variable holds u: skip when
pre-signed (leaving the entry untouched and the url variable at u),
otherwise read stream["s"] (KeyError when absent) and descramble. -/
def processWithUrl (c : CipherFns) (e : StreamEntry) (u : String) :
    Except PyErr (StreamEntry × Option String) :=
  if preSignedCheck e u then .ok (e, some u)
  else
    match e.s with
    | none => .error (.keyError "s")
    | some sTok => descramble c e u sTok

/-- One iteration of the loop body of apply_signature.  uv is the current
value of the url local variable (none before its first assignment).  When
stream["url"] raises KeyError, a truthy liveStreamability raises
LiveStreamError("UNKNOWN"); otherwise execution falls through to the skip
test with url still holding its previous value (UnboundLocalError on the
first iteration). -/
def stepEntry (c : CipherFns) (live : Bool) (uv : Option String)
    (e : StreamEntry) : Except PyErr (StreamEntry × Option String) :=
  match e.url with
  | some u => processWithUrl c e u
  | none =>
    if live then .error (.liveStream "UNKNOWN")
    else
      match uv with
      | none => .error (.unboundLocal "url")
      | some u => processWithUrl c e u

/-- Result of running the patcher loop: the manifest as mutated in place,
the final value of the url variable, and the exception that escaped, if
any.  On an exception, the failing entry and all following entries are
returned unchanged, exactly as the in-place Python loop leaves them. -/
structure LoopResult where
  entries : List StreamEntry
  urlVar : Option String
  err : Option PyErr
  deriving Repr, DecidableEq

/-- The loop of apply_signature over the manifest entries. -/
def applySigAux (c : CipherFns) (live : Bool) (uv : Option String) :
    List StreamEntry → LoopResult
  | [] => ⟨[], uv, none⟩
  | e :: rest =>
    match stepEntry c live uv e with
    | .error er => ⟨e :: rest, uv, some er⟩
    | .ok (e2, uv2) =>
      let r := applySigAux c live uv2 rest
      ⟨e2 :: r.entries, r.urlVar, r.err⟩

/-- apply_signature given an already-constructed cipher: the manifest after
in-place patching, and the exception that escaped, if any. -/
def applySignatureWith (c : CipherFns) (live : Bool)
    (m : List StreamEntry) : List StreamEntry × Option PyErr :=
  let r := applySigAux c live none m
  (r.entries, r.err)

/-! ## The cipher engine, modelled from the specification

Modelled from the spec: the repository's cipher module (the Cipher class
with its compiled signature program and n-transform program, specification
sections 3, 4.1 to 4.5) is not under src/; extract.py only calls
Cipher(js=js), cipher.get_signature and cipher.calculate_n.  The engine and
compiler below follow the specification text. -/

/-- The primitive operations of a signature program: REVERSE, DROP_PREFIX
(written dropStart) and SWAP. -/
inductive Operation where
  | reverse
  | dropStart (count : Nat)
  | swap (index : Nat)
  deriving Repr, DecidableEq

/-- Exchange element 0 with element (i mod length); the identity on the
empty list. -/
def listSwapHead (l : List Char) (i : Nat) : List Char :=
  match l with
  | [] => []
  | c0 :: rest =>
    let j := i % (rest.length + 1)
    ((c0 :: rest).set 0 ((c0 :: rest).getD j c0)).set j c0

/-- One engine step: REVERSE reverses the whole sequence, DROP_PREFIX
removes the first count elements, SWAP exchanges element 0 with element
(index mod length). -/
def applyOp (l : List Char) : Operation → List Char
  | .reverse => l.reverse
  | .dropStart k => l.drop k
  | .swap i => listSwapHead l i

/-- applySignature of the Cipher Engine: apply each operation in program
order to the token's character sequence and join the result. -/
def applySignature (token : String) (program : List Operation) : String :=
  (program.foldl applyOp token.toList).asString

/-- Instructions of the n-transform program: the signature vocabulary
extended with index arithmetic against the input length and conditional
reversal. -/
inductive NTInstr where
  | reverseAll
  | reverseIfOdd
  | dropStartN (count : Nat)
  | swapModIndex (index : Nat)
  | rotateOnce
  deriving Repr, DecidableEq

/-- One n-transform step. -/
def applyNTInstr (l : List Char) : NTInstr → List Char
  | .reverseAll => l.reverse
  | .reverseIfOdd => if l.length % 2 = 1 then l.reverse else l
  | .dropStartN k => l.drop k
  | .swapModIndex i => listSwapHead l i
  | .rotateOnce =>
    match l with
    | [] => []
    | c :: rest => rest ++ [c]

/-- Execution-step budget of the n-transform evaluator. -/
def ntBudget : Nat := 10000

/-- applyNTransform of the Cipher Engine: run the compiled instruction
sequence under the step budget. -/
def applyNTransform (tokenChars : List Char) (program : List NTInstr) :
    Except PyErr String :=
  if ntBudget < program.length then .error .evalTimeout
  else .ok ((program.foldl applyNTInstr tokenChars).asString)

/-! ## The compiler, modelled from the specification -/

/-- An opening brace character. -/
def lbrace : Char := Char.ofNat 123

/-- A closing brace character. -/
def rbrace : Char := Char.ofNat 125

/-- Brace scanner (extractBlock of the specification): scan forward
counting brace depth, ignoring braces inside string literals (with
backslash escapes), until depth returns to zero.  Arguments: remaining
text, current depth, the quote character when inside a literal, and the
accumulated block (reversed).  Returns none when the text ends first. -/
def extractBlockAux : List Char → Nat → Option Char → List Char →
    Option (List Char)
  | [], _, _, _ => none
  | c :: rest, depth, some q, acc =>
    if c = '\\' then
      match rest with
      | [] => none
      | d :: rest2 => extractBlockAux rest2 depth (some q) (d :: c :: acc)
    else if c = q then extractBlockAux rest depth none (c :: acc)
    else extractBlockAux rest depth (some q) (c :: acc)
  | c :: rest, depth, none, acc =>
    if c = '"' ∨ c = '\'' then extractBlockAux rest depth (some c) (c :: acc)
    else if c = lbrace then extractBlockAux rest (depth + 1) none (c :: acc)
    else if c = rbrace then
      if depth ≤ 1 then some ((c :: acc).reverse)
      else extractBlockAux rest (depth - 1) none (c :: acc)
    else extractBlockAux rest depth none (c :: acc)

/-- Extract the balanced brace block starting at the first opening brace of
the text, outer braces included. -/
def extractBlock (l : List Char) : Option (List Char) :=
  match l.dropWhile (fun c => !(c = lbrace)) with
  | [] => none
  | l2 => extractBlockAux l2 0 none []

/-- Suffix of the text starting at the first occurrence of the marker, if
any. -/
def findMarker (marker : List Char) : List Char → Option (List Char)
  | [] => if marker.isEmpty then some [] else none
  | c :: rest =>
    if marker.isPrefixOf (c :: rest) then some (c :: rest)
    else findMarker marker rest

/-- Characters of a JavaScript identifier. -/
def identChar (c : Char) : Bool :=
  c.isAlphanum || c = '_' || c = '$'

/-- Numeric value of a digit sequence. -/
def natOfDigits (ds : List Char) : Nat :=
  ds.foldl (fun n c => n * 10 + (c.toNat - 48)) 0

/-- Structural probe for the decipher function (Function Locator): a
function of one argument whose body begins by splitting the argument into a
character sequence. -/
def decipherMarker : List Char :=
  "=function(a)\x7ba=a.split(\"\");".toList

/-- Parse the ordered call sequence ALIAS.KEY(a) or ALIAS.KEY(a,N)
following the split statement, until the return statement.  Returns
(alias, key, argument) triples.  Fails on any other statement shape. -/
def parseCallsAux : Nat → List Char → Option (List (String × String × Option Nat))
  | 0, _ => none
  | fuel + 1, l =>
    if "return".toList.isPrefixOf l then some []
    else
      let a := l.span identChar
      match a.2 with
      | '.' :: r2 =>
        let k := r2.span identChar
        if a.1.isEmpty || k.1.isEmpty then none
        else
          match k.2 with
          | '(' :: 'a' :: ')' :: ';' :: r5 =>
            (parseCallsAux fuel r5).map
              (fun t => (a.1.asString, k.1.asString, none) :: t)
          | '(' :: 'a' :: ',' :: r5 =>
            let ds := r5.span Char.isDigit
            if ds.1.isEmpty then none
            else
              match ds.2 with
              | ')' :: ';' :: r7 =>
                (parseCallsAux fuel r7).map
                  (fun t =>
                    (a.1.asString, k.1.asString, some (natOfDigits ds.1)) :: t)
              | _ => none
          | _ => none
      | _ => none

/-- The three primitive operation kinds recognised by the Operation
Classifier. -/
inductive OpKind where
  | reverseOp
  | spliceOp
  | swapOp
  deriving Repr, DecidableEq

/-- Operation Classifier: classify a helper sub-function body by which
standard-library array calls it contains, in the priority order of the
specification (reverse, then swap via a temporary variable, then splice).
Returns none for an unrecognised body. -/
def classify (body : List Char) : Option OpKind :=
  if containsSubstrL ".reverse(".toList body then some .reverseOp
  else if containsSubstrL "var ".toList body then some .swapOp
  else if containsSubstrL ".splice(".toList body then some .spliceOp
  else none

/-- Split the members of an object literal at top-level commas (depth
counted over braces and parentheses). -/
def splitMembersAux : List Char → Nat → List Char → List (List Char)
  | [], _, acc => [acc.reverse]
  | c :: rest, depth, acc =>
    if c = ',' ∧ depth = 0 then acc.reverse :: splitMembersAux rest 0 []
    else if c = lbrace ∨ c = '(' then splitMembersAux rest (depth + 1) (c :: acc)
    else if c = rbrace ∨ c = ')' then splitMembersAux rest (depth - 1) (c :: acc)
    else splitMembersAux rest depth (c :: acc)

/-- Build the helper key table from the object-literal body: each member
KEY:FUNCTION is classified lazily (classification of an unrecognised body
is an error only when the decipher program calls that key). -/
def helperTable (inner : List Char) : List (String × Option OpKind) :=
  (splitMembersAux inner 0 []).map (fun mem =>
    match splitFirstP (fun c => c = ':') mem with
    | (k, some bodyPart) => (k.asString, classify bodyPart)
    | (k, none) => (k.asString, none))

/-- Sanity bound on operation arguments (specification section 3): values
beyond a few hundred indicate misclassification. -/
def opArgBound : Nat := 300

/-- Program Compiler: translate one call into an operation through the
helper key table.  A key that is absent or whose body was not recognised
raises UnsupportedOperationError naming the key; an argument beyond the
sanity bound is rejected. -/
def opOfCall (table : List (String × Option OpKind))
    (call : String × String × Option Nat) : Except PyErr Operation :=
  if opArgBound < (call.2.2.getD 0) then
    .error (.patternDrift "operation-argument-bound")
  else
    match table.find? (fun kv => kv.1 == call.2.1) with
    | none => .error (.unsupportedOp call.2.1)
    | some (_, none) => .error (.unsupportedOp call.2.1)
    | some (_, some OpKind.reverseOp) => .ok .reverse
    | some (_, some OpKind.spliceOp) => .ok (.dropStart (call.2.2.getD 0))
    | some (_, some OpKind.swapOp) => .ok (.swap (call.2.2.getD 0))

/-- Locate the decipher function, parse its call sequence, locate and
classify the helper object, and compile the signature program. -/
def compileSigProgram (js : List Char) : Except PyErr (List Operation) :=
  match findMarker decipherMarker js with
  | none => .error (.patternDrift "decipher")
  | some suf =>
    match parseCallsAux (suf.length) (suf.drop decipherMarker.length) with
    | none => .error (.patternDrift "decipher")
    | some [] => .error (.patternDrift "decipher")
    | some (call0 :: calls) =>
      match findMarker ("var ".toList ++ call0.1.toList ++ ['=']) js with
      | none => .error (.patternDrift "helper")
      | some suf2 =>
        match extractBlock suf2 with
        | none => .error .unbalancedBlock
        | some obj =>
          (call0 :: calls).mapM (opOfCall (helperTable ((obj.drop 1).dropLast)))

/-- Structural probe for the n-transform function. -/
def ntMarker : List Char :=
  "=function(a)\x7bvar b=a.split(\"\")".toList

/-- Recognise one n-transform statement: some none for a benign statement
carrying no instruction, some (some i) for a recognised instruction, none
for anything outside the recognised vocabulary. -/
def compileNTStatement (st : List Char) : Option (Option NTInstr) :=
  if st.isEmpty then some none
  else if st = "var b=a.split(\"\")".toList then some none
  else if "return b.join(\"\")".toList.isPrefixOf st then some none
  else if st = "b.reverse()".toList then some (some .reverseAll)
  else if st = "if(b.length%2)b.reverse()".toList then some (some .reverseIfOdd)
  else if st = "b.push(b.shift())".toList then some (some .rotateOnce)
  else if "b.splice(0,".toList.isPrefixOf st then
    let ds := (st.drop 11).span Char.isDigit
    if ds.1.isEmpty then none
    else if ds.2 = [')'] then some (some (.dropStartN (natOfDigits ds.1)))
    else none
  else none

/-- Bound on the instruction count of a compiled n-transform program
(specification section 3: reject pathological bodies as unrecognised). -/
def ntProgramBound : Nat := 512

/-- Compile the n-transform program.  Absence of the probe is tolerated
(the manifest may carry no n token); a located body with an unrecognised
statement, or an oversized program, raises PatternDriftError. -/
def compileNT (js : List Char) : Except PyErr (Option (List NTInstr)) :=
  match findMarker ntMarker js with
  | none => .ok none
  | some suf =>
    match extractBlock suf with
    | none => .error .unbalancedBlock
    | some body =>
      match ((splitAllOn ';' ((body.drop 1).dropLast)).mapM
          compileNTStatement) with
      | none => .error (.patternDrift "n-transform-body")
      | some instrs =>
        let prog := instrs.reduceOption
        if ntProgramBound < prog.length then
          .error (.patternDrift "n-transform-body")
        else .ok (some prog)

/-- The Cipher of the specification: one compiled signature program and one
compiled n-transform program per script version. -/
structure Cipher where
  sigProgram : List Operation
  ntProgram : Option (List NTInstr)
  deriving Repr, DecidableEq

/-- Cipher construction from the player-script text. -/
def Cipher.fromJs (js : String) : Except PyErr Cipher :=
  match compileSigProgram js.toList with
  | .error er => .error er
  | .ok prog =>
    match compileNT js.toList with
    | .error er => .error er
    | .ok nt => .ok ⟨prog, nt⟩

/-- cipher.get_signature: apply the compiled signature program. -/
def Cipher.get_signature (ci : Cipher) (t : String) : String :=
  applySignature t ci.sigProgram

/-- cipher.calculate_n: apply the compiled n-transform program; a missing
program is a pattern-drift failure. -/
def Cipher.calculate_n (ci : Cipher) (l : List Char) : Except PyErr String :=
  match ci.ntProgram with
  | none => .error (.patternDrift "n-transform")
  | some p => applyNTransform l p

/-- The method record the patcher uses. -/
def Cipher.fns (ci : Cipher) : CipherFns :=
  ⟨ci.get_signature, ci.calculate_n⟩

/-! ## Top-level apply_signature -/

/-- apply_signature(stream_manifest, vid_info, js): construct one Cipher
from the script text, then run the patcher loop over the manifest with it.
A failed construction escapes before any entry is touched. -/
def apply_signature (m : List StreamEntry) (vidInfo : VidInfo) (js : String) :
    List StreamEntry × Option PyErr :=
  match Cipher.fromJs js with
  | .error er => (m, some er)
  | .ok ci => applySignatureWith ci.fns (isLiveStream vidInfo) m

/-- The patcher loop instrumented with a cipher-construction counter: the
counter is threaded through every iteration and incremented nowhere,
because the loop body of apply_signature constructs no Cipher. -/
def applySigAuxCounted (c : CipherFns) (live : Bool) (uv : Option String) :
    List StreamEntry → Nat → LoopResult × Nat
  | [], k => (⟨[], uv, none⟩, k)
  | e :: rest, k =>
    match stepEntry c live uv e with
    | .error er => (⟨e :: rest, uv, some er⟩, k)
    | .ok (e2, uv2) =>
      let r := applySigAuxCounted c live uv2 rest k
      (⟨e2 :: r.1.entries, r.1.urlVar, r.1.err⟩, r.2)

/-- apply_signature instrumented with the construction counter: the single
Cipher(js=js) call before the loop accounts for the one construction. -/
def apply_signatureCounted (m : List StreamEntry) (vidInfo : VidInfo)
    (js : String) : (List StreamEntry × Option PyErr) × Nat :=
  match Cipher.fromJs js with
  | .error er => ((m, some er), 1)
  | .ok ci =>
    let r := applySigAuxCounted ci.fns (isLiveStream vidInfo) none m 1
    ((r.1.entries, r.1.err), r.2)

/-! ## safe_filename (src/pytube/helpers.py) -/

/-- Control characters chr(0) through chr(30) removed by safe_filename. -/
def ntfsForbidden (c : Char) : Bool :=
  c.toNat ≤ 30

/-- The punctuation characters matched by safe_filename's regular
expression (each alternation branch matches one of these characters; the
double-backslash branch matches two backslashes, which the single
backslash branch already removes one at a time). -/
def forbiddenPunct : List Char :=
  ['"', '#', '$', '%', '\'', '*', ',', '.', '/', ':', ';', '<', '>', '?',
    '\\', '^', '|', '~']

/-- A character removed by safe_filename's substitution. -/
def forbiddenFilenameChar (c : Char) : Bool :=
  ntfsForbidden c || charIn c forbiddenPunct

/-- safe_filename(s, max_length): remove every forbidden character, then
truncate to max_length characters.  The trailing rsplit(" ", 0)[0] in the
source performs no split (maxsplit is 0) and returns the string unchanged. -/
def safe_filename (s : String) (maxLength : Nat) : String :=
  ((s.toList.filter (fun c => !forbiddenFilenameChar c)).take maxLength).asString

/-! ## Query-parameter observers used by the theorems -/

/-- The collapsed (first-value) query parameters of a URL, as
apply_signature computes them. -/
def urlParams (u : String) : List (String × String) :=
  collapseValues (parse_qs (urlparse u).query)

/-- Value of one query parameter of a URL (first value when repeated). -/
def urlQueryParam (u : String) (k : String) : Option String :=
  dictGet (urlParams u) k

/-- Whether a URL's query parameters contain the key k. -/
def urlHasParam (u : String) (k : String) : Bool :=
  hasKeyD (urlParams u) k

/-- All values of one query parameter of a URL, in order. -/
def urlParamValues (u : String) (k : String) : List String :=
  (parse_qsl (urlparse u).query).filterMap
    (fun kv => if kv.1 = k then some kv.2 else none)

/-- Value of one query parameter of an entry's URL. -/
def entryParam (e : StreamEntry) (k : String) : Option String :=
  match e.url with
  | none => none
  | some u => urlQueryParam u k

/-! # Lemmas

## The patcher loop -/

theorem applySigAux_cons (c : CipherFns) (live : Bool) (uv : Option String)
    (e : StreamEntry) (rest : List StreamEntry) :
    applySigAux c live uv (e :: rest) =
      match stepEntry c live uv e with
      | .error er => ⟨e :: rest, uv, some er⟩
      | .ok (e2, uv2) =>
        ⟨e2 :: (applySigAux c live uv2 rest).entries,
          (applySigAux c live uv2 rest).urlVar,
          (applySigAux c live uv2 rest).err⟩ := by
  conv_lhs => unfold applySigAux

theorem applySigAux_length (c : CipherFns) (live : Bool) :
    ∀ (m : List StreamEntry) (uv : Option String),
      (applySigAux c live uv m).entries.length = m.length := by
  intro m
  induction m with
  | nil => intro uv; rfl
  | cons e rest ih =>
    intro uv
    unfold applySigAux
    cases h : stepEntry c live uv e with
    | error er => simp
    | ok p => simp [ih]

theorem applySigAux_error_suffix (c : CipherFns) (live : Bool) :
    ∀ (m : List StreamEntry) (uv : Option String) (er : PyErr),
      (applySigAux c live uv m).err = some er →
      ∃ k, k < m.length ∧
        (applySigAux c live uv m).entries.drop k = m.drop k := by
  intro m
  induction m with
  | nil => intro uv er h; exact absurd h (by simp [applySigAux])
  | cons e rest ih =>
    intro uv er h
    unfold applySigAux at h ⊢
    cases hs : stepEntry c live uv e with
    | error er2 =>
      refine ⟨0, by simp, ?_⟩
      simp [hs]
    | ok p =>
      rw [hs] at h
      simp only at h
      obtain ⟨k, hk, hdrop⟩ := ih p.2 er h
      refine ⟨k + 1, by simpa using hk, ?_⟩
      simp [hs, hdrop]

theorem stepEntry_of_url (c : CipherFns) (live : Bool) (uv : Option String)
    (e : StreamEntry) (u : String) (h : e.url = some u) :
    stepEntry c live uv e = processWithUrl c e u := by
  unfold stepEntry
  rw [h]

theorem processWithUrl_presigned (c : CipherFns) (e : StreamEntry)
    (u : String) (h : preSignedCheck e u = true) :
    processWithUrl c e u = .ok (e, some u) := by
  unfold processWithUrl
  rw [h]
  simp

theorem applySigAux_presigned_unchanged (c : CipherFns) (live : Bool) :
    ∀ (m : List StreamEntry) (uv : Option String) (i : Nat)
      (hi : i < m.length),
      presignedEntry (m.get ⟨i, hi⟩) = true →
      (applySigAux c live uv m).entries.getD i emptyEntry = m.get ⟨i, hi⟩ := by
  intro m
  induction m with
  | nil => intro uv i hi; exact absurd hi (by simp)
  | cons e rest ih =>
    intro uv i hi hp
    unfold applySigAux
    cases hs : stepEntry c live uv e with
    | error er =>
      simp only
      cases i with
      | zero => simp
      | succ j =>
        have hj : j < rest.length := by simpa using hi
        simp [List.getD, List.getElem?_eq_getElem hj]
    | ok p =>
      simp only
      cases i with
      | zero =>
        simp only [List.get] at hp
        unfold presignedEntry at hp
        cases hu : e.url with
        | none => rw [hu] at hp; exact absurd hp (by simp)
        | some u =>
          rw [hu] at hp
          rw [stepEntry_of_url c live uv e u hu,
            processWithUrl_presigned c e u hp] at hs
          cases hs
          simp
      | succ j =>
        have hj : j < rest.length := by simpa using hi
        have := ih p.2 j hj (by simpa using hp)
        simpa using this

/-! ## Cipher errors cannot be live-stream errors -/

theorem applyNTransform_ne_liveStream (l : List Char) (p : List NTInstr)
    (r : String) : applyNTransform l p ≠ .error (.liveStream r) := by
  unfold applyNTransform
  split <;> simp

theorem calculate_n_ne_liveStream (ci : Cipher) (l : List Char) (r : String) :
    ci.calculate_n l ≠ .error (.liveStream r) := by
  unfold Cipher.calculate_n
  cases ci.ntProgram with
  | none => simp
  | some p => exact applyNTransform_ne_liveStream l p r

theorem buildQueryParams_liveStream (c : CipherFns) (sg : String)
    (q : List Char) (r : String)
    (hc : ∀ (l : List Char), c.calculate_n l ≠ .error (.liveStream r))
    (h : buildQueryParams c sg q = .error (.liveStream r)) : False := by
  simp only [buildQueryParams] at h
  split at h
  · exact Except.noConfusion h
  · split at h
    · simp at h
    · split at h
      · rename_i er2 heq2
        simp only [Except.error.injEq] at h
        exact hc _ (h ▸ heq2)
      · exact Except.noConfusion h

theorem processWithUrl_liveStream (c : CipherFns) (e : StreamEntry)
    (u : String) (r : String)
    (hc : ∀ (l : List Char), c.calculate_n l ≠ .error (.liveStream r))
    (h : processWithUrl c e u = .error (.liveStream r)) : False := by
  simp only [processWithUrl] at h
  split at h
  · exact Except.noConfusion h
  · split at h
    · simp at h
    · simp only [descramble] at h
      split at h
      · simp at h
      · split at h
        · rename_i heq
          simp only [Except.error.injEq] at h
          exact buildQueryParams_liveStream c _ _ r hc (by rw [heq, h])
        · exact Except.noConfusion h

theorem stepEntry_liveStream_inv (c : CipherFns) (live : Bool)
    (uv : Option String) (e : StreamEntry) (r : String)
    (hc : ∀ (l : List Char), c.calculate_n l ≠ .error (.liveStream r))
    (h : stepEntry c live uv e = .error (.liveStream r)) :
    live = true ∧ e.url = none := by
  unfold stepEntry at h
  cases hu : e.url with
  | some u =>
    rw [hu] at h
    exact (processWithUrl_liveStream c e u r hc h).elim
  | none =>
    rw [hu] at h
    cases hl : live with
    | true => exact ⟨rfl, rfl⟩
    | false =>
      rw [hl] at h
      simp only [Bool.false_eq_true, if_false] at h
      cases uv with
      | none => simp at h
      | some u =>
        exact (processWithUrl_liveStream c e u r hc h).elim

theorem stepEntry_url_none_live (c : CipherFns) (uv : Option String)
    (e : StreamEntry) (h : e.url = none) :
    stepEntry c true uv e = .error (.liveStream "UNKNOWN") := by
  unfold stepEntry
  rw [h]
  simp

theorem applySigAux_append_ok (c : CipherFns) (live : Bool) :
    ∀ (m₁ m₂ : List StreamEntry) (uv : Option String),
      (applySigAux c live uv m₁).err = none →
      applySigAux c live uv (m₁ ++ m₂) =
        ⟨(applySigAux c live uv m₁).entries ++
            (applySigAux c live (applySigAux c live uv m₁).urlVar m₂).entries,
          (applySigAux c live (applySigAux c live uv m₁).urlVar m₂).urlVar,
          (applySigAux c live (applySigAux c live uv m₁).urlVar m₂).err⟩ := by
  intro m₁
  induction m₁ with
  | nil => intro m₂ uv hok; simp [applySigAux]
  | cons e rest ih =>
    intro m₂ uv hok
    cases hs : stepEntry c live uv e with
    | error er =>
      unfold applySigAux at hok
      rw [hs] at hok
      simp at hok
    | ok p =>
      obtain ⟨e2, uv2⟩ := p
      have hcons : applySigAux c live uv (e :: rest) =
          ⟨e2 :: (applySigAux c live uv2 rest).entries,
            (applySigAux c live uv2 rest).urlVar,
            (applySigAux c live uv2 rest).err⟩ := by
        rw [applySigAux_cons, hs]
      have hok2 : (applySigAux c live uv2 rest).err = none := by
        rw [hcons] at hok
        exact hok
      have hconsm : applySigAux c live uv (e :: (rest ++ m₂)) =
          ⟨e2 :: (applySigAux c live uv2 (rest ++ m₂)).entries,
            (applySigAux c live uv2 (rest ++ m₂)).urlVar,
            (applySigAux c live uv2 (rest ++ m₂)).err⟩ := by
        rw [applySigAux_cons, hs]
      rw [List.cons_append, hconsm, ih m₂ uv2 hok2, hcons]
      simp

theorem applySigAux_liveStream_source (c : CipherFns) (live : Bool)
    (hc : ∀ (l : List Char) (r : String),
      c.calculate_n l ≠ .error (.liveStream r)) :
    ∀ (m : List StreamEntry) (uv : Option String) (r : String),
      (applySigAux c live uv m).err = some (.liveStream r) →
      live = true ∧ ∃ (m₁ : List StreamEntry) (e : StreamEntry)
        (m₂ : List StreamEntry), m = m₁ ++ e :: m₂ ∧
        (applySigAux c live uv m₁).err = none ∧ e.url = none := by
  intro m
  induction m with
  | nil => intro uv r h; exact absurd h (by simp [applySigAux])
  | cons e rest ih =>
    intro uv r h
    unfold applySigAux at h
    cases hs : stepEntry c live uv e with
    | error er =>
      rw [hs] at h
      simp only [Option.some.injEq] at h
      subst h
      obtain ⟨hlive, hurl⟩ := stepEntry_liveStream_inv c live uv e r (hc · r) hs
      exact ⟨hlive, [], e, rest, rfl, by simp [applySigAux], hurl⟩
    | ok p =>
      rw [hs] at h
      simp only at h
      obtain ⟨hlive, m₁, e2, m₂, hm, hok, hurl⟩ := ih p.2 r h
      refine ⟨hlive, e :: m₁, e2, m₂, by rw [hm, List.cons_append], ?_, hurl⟩
      unfold applySigAux
      rw [hs]
      simpa using hok

/-! ## The instrumented loop never constructs a cipher -/

theorem applySigAuxCounted_spec (c : CipherFns) (live : Bool) :
    ∀ (m : List StreamEntry) (uv : Option String) (k : Nat),
      applySigAuxCounted c live uv m k = (applySigAux c live uv m, k) := by
  intro m
  induction m with
  | nil => intro uv k; rfl
  | cons e rest ih =>
    intro uv k
    unfold applySigAuxCounted applySigAux
    cases hs : stepEntry c live uv e with
    | error er => rfl
    | ok p => simp [ih]

/-! ## Character code points -/

theorem toNat_ofNat_of_valid {n : Nat} (h : n.isValidChar) :
    (Char.ofNat n).toNat = n := by
  simp only [Char.ofNat, dif_pos h, Char.ofNatAux, Char.toNat]
  simp [UInt32.toNat, BitVec.toNat_ofNatLt]

theorem char_eq_iff_toNat {c d : Char} : c = d ↔ c.toNat = d.toNat := by
  constructor
  · intro h; rw [h]
  · intro h
    have h2 := congrArg Char.ofNat h
    rwa [Char.ofNat_toNat, Char.ofNat_toNat] at h2

theorem char_toNat_valid (c : Char) : c.toNat.isValidChar := c.valid

theorem isUpper_iff (c : Char) :
    c.isUpper = true ↔ 65 ≤ c.toNat ∧ c.toNat ≤ 90 := by
  simp only [Char.isUpper, Bool.and_eq_true, decide_eq_true_eq, ge_iff_le]
  exact ⟨fun h => h, fun h => h⟩

theorem isLower_iff (c : Char) :
    c.isLower = true ↔ 97 ≤ c.toNat ∧ c.toNat ≤ 122 := by
  simp only [Char.isLower, Bool.and_eq_true, decide_eq_true_eq, ge_iff_le]
  exact ⟨fun h => h, fun h => h⟩

theorem isDigit_iff (c : Char) :
    c.isDigit = true ↔ 48 ≤ c.toNat ∧ c.toNat ≤ 57 := by
  simp only [Char.isDigit, Bool.and_eq_true, decide_eq_true_eq, ge_iff_le]
  exact ⟨fun h => h, fun h => h⟩

theorem isAlpha_iff (c : Char) :
    c.isAlpha = true ↔
      (65 ≤ c.toNat ∧ c.toNat ≤ 90) ∨ (97 ≤ c.toNat ∧ c.toNat ≤ 122) := by
  simp [Char.isAlpha, isUpper_iff, isLower_iff]

theorem isAlphanum_iff (c : Char) :
    c.isAlphanum = true ↔
      (48 ≤ c.toNat ∧ c.toNat ≤ 57) ∨ (65 ≤ c.toNat ∧ c.toNat ≤ 90) ∨
        (97 ≤ c.toNat ∧ c.toNat ≤ 122) := by
  simp [Char.isAlphanum, isAlpha_iff, isDigit_iff]
  tauto

theorem isSafeChar_iff (c : Char) :
    isSafeChar c = true ↔
      (48 ≤ c.toNat ∧ c.toNat ≤ 57) ∨ (65 ≤ c.toNat ∧ c.toNat ≤ 90) ∨
        (97 ≤ c.toNat ∧ c.toNat ≤ 122) ∨ c.toNat = 95 ∨ c.toNat = 46 ∨
        c.toNat = 45 ∨ c.toNat = 126 := by
  simp only [isSafeChar, Bool.or_eq_true, isAlphanum_iff, char_eq_iff_toNat]
  norm_num
  tauto

theorem schemeChar_iff (c : Char) :
    schemeChar c = true ↔
      (48 ≤ c.toNat ∧ c.toNat ≤ 57) ∨ (65 ≤ c.toNat ∧ c.toNat ≤ 90) ∨
        (97 ≤ c.toNat ∧ c.toNat ≤ 122) ∨ c.toNat = 43 ∨ c.toNat = 45 ∨
        c.toNat = 46 := by
  simp only [schemeChar, Bool.or_eq_true, isAlphanum_iff, char_eq_iff_toNat]
  norm_num
  tauto

theorem toLower_toNat (c : Char) :
    (Char.toLower c).toNat =
      if 65 ≤ c.toNat ∧ c.toNat ≤ 90 then c.toNat + 32 else c.toNat := by
  simp only [Char.toLower, ge_iff_le]
  split <;> rename_i h
  · exact toNat_ofNat_of_valid (Or.inl (by omega))
  · rfl

/-! ## The percent-codec round trip -/

theorem hexDigitChar_toNat {x : Nat} (h : x < 16) :
    (hexDigitChar x).toNat = if x < 10 then 48 + x else 55 + x := by
  unfold hexDigitChar
  split
  · exact toNat_ofNat_of_valid (Or.inl (by omega))
  · exact toNat_ofNat_of_valid (Or.inl (by omega))

theorem hexVal_hexDigitChar {x : Nat} (h : x < 16) :
    hexVal (hexDigitChar x) = some x := by
  unfold hexVal
  rw [hexDigitChar_toNat h]
  by_cases h10 : x < 10
  · rw [if_pos h10, if_pos (by omega)]
    congr 1
    omega
  · rw [if_neg h10, if_neg (by omega), if_pos (by omega)]
    congr 1
    omega

theorem utf8Bytes_lt_256 {n : Nat} (hn : n < 0x110000) (b : Nat)
    (hb : b ∈ utf8Bytes n) : b < 256 := by
  unfold utf8Bytes at hb
  split at hb
  · simp at hb; omega
  · split at hb
    · simp at hb; rcases hb with h | h <;> omega
    · split at hb
      · simp at hb; rcases hb with h | h | h <;> omega
      · simp at hb; rcases hb with h | h | h | h <;> omega

theorem quoteChar_mem (c x : Char) (hx : x ∈ quoteChar c) :
    (isSafeChar x = true) ∨ x.toNat = 37 ∨
      (48 ≤ x.toNat ∧ x.toNat ≤ 57) ∨ (65 ≤ x.toNat ∧ x.toNat ≤ 70) := by
  unfold quoteChar at hx
  split at hx
  · rename_i hs
    simp at hx
    subst hx
    exact Or.inl hs
  · simp only [List.mem_flatMap] at hx
    obtain ⟨b, hb, hxb⟩ := hx
    have hn : c.toNat < 0x110000 := by
      rcases char_toNat_valid c with h | ⟨_, h⟩ <;> omega
    have hb256 : b < 256 := utf8Bytes_lt_256 hn b hb
    unfold percentHex at hxb
    simp at hxb
    rcases hxb with h | h | h
    · subst h
      exact Or.inr (Or.inl rfl)
    · subst h
      rw [hexDigitChar_toNat (by omega)]
      split <;> [exact Or.inr (Or.inr (Or.inl (by omega)));
        exact Or.inr (Or.inr (Or.inr (by omega)))]
    · subst h
      rw [hexDigitChar_toNat (by omega)]
      split <;> [exact Or.inr (Or.inr (Or.inl (by omega)));
        exact Or.inr (Or.inr (Or.inr (by omega)))]

theorem quotePlusChar_mem (c x : Char) (hx : x ∈ quotePlusChar c) :
    x.toNat = 43 ∨ (isSafeChar x = true) ∨ x.toNat = 37 ∨
      (48 ≤ x.toNat ∧ x.toNat ≤ 57) ∨ (65 ≤ x.toNat ∧ x.toNat ≤ 70) := by
  unfold quotePlusChar at hx
  split at hx
  · simp at hx
    subst hx
    exact Or.inl rfl
  · exact Or.inr (quoteChar_mem c x hx)

theorem quotePlusL_mem (l : List Char) (x : Char) (hx : x ∈ quotePlusL l) :
    x.toNat = 43 ∨ (isSafeChar x = true) ∨ x.toNat = 37 ∨
      (48 ≤ x.toNat ∧ x.toNat ≤ 57) ∨ (65 ≤ x.toNat ∧ x.toNat ≤ 70) := by
  unfold quotePlusL at hx
  simp only [List.mem_flatMap] at hx
  obtain ⟨c, _, hxc⟩ := hx
  exact quotePlusChar_mem c x hxc

theorem utf8SM_cons_none (b : Nat) (rest : List Nat) :
    utf8SM (b :: rest) none =
      (utf8Step1 b).1 ++ utf8SM rest (utf8Step1 b).2 := rfl

theorem utf8SM_cons_some (b : Nat) (rest : List Nat) (st : Utf8State) :
    utf8SM (b :: rest) (some st) =
      if st.lo ≤ b ∧ b ≤ st.hi then
        if st.missing ≤ 1 then
          Char.ofNat (st.acc * 0x40 + (b - 0x80)) :: utf8SM rest none
        else utf8SM rest
          (some ⟨0x80, 0xBF, st.missing - 1, st.acc * 0x40 + (b - 0x80)⟩)
      else replacementChar :: ((utf8Step1 b).1 ++ utf8SM rest (utf8Step1 b).2) :=
  rfl

theorem utf8SM_encode (c : Char) (rest : List Nat) :
    utf8SM (utf8Bytes c.toNat ++ rest) none = c :: utf8SM rest none := by
  have hv := char_toNat_valid c
  have hofn : Char.ofNat c.toNat = c := Char.ofNat_toNat c
  unfold utf8Bytes
  by_cases h1 : c.toNat < 0x80
  · rw [if_pos h1]
    rw [List.cons_append, List.nil_append, utf8SM_cons_none]
    unfold utf8Step1
    rw [if_pos h1]
    dsimp only
    rw [hofn]
    rfl
  · rw [if_neg h1]
    by_cases h2 : c.toNat < 0x800
    · rw [if_pos h2]
      rw [List.cons_append, List.cons_append, List.nil_append,
        utf8SM_cons_none]
      unfold utf8Step1
      rw [if_neg (by omega), if_pos (by omega)]
      dsimp only
      rw [List.nil_append, utf8SM_cons_some]
      dsimp only
      rw [if_pos (by omega), if_pos (by omega)]
      congr 1
      refine Eq.trans ?_ hofn
      congr 1
      omega
    · rw [if_neg h2]
      by_cases h3 : c.toNat < 0x10000
      · rw [if_pos h3]
        rw [List.cons_append, List.cons_append, List.cons_append,
          List.nil_append, utf8SM_cons_none]
        unfold utf8Step1
        rw [if_neg (by omega), if_neg (by omega)]
        rcases Nat.lt_or_ge c.toNat 0x1000 with hq | hq
        · rw [if_pos (by omega)]
          dsimp only
          rw [List.nil_append, utf8SM_cons_some]
          dsimp only
          rw [if_pos (by omega), if_neg (by omega), utf8SM_cons_some]
          dsimp only
          rw [if_pos (by omega), if_pos (by omega)]
          congr 1
          refine Eq.trans ?_ hofn
          congr 1
          omega
        · rw [if_neg (by omega)]
          rcases Nat.lt_or_ge c.toNat 0xD000 with hq2 | hq2
          · rw [if_pos (by omega)]
            dsimp only
            rw [List.nil_append, utf8SM_cons_some]
            dsimp only
            rw [if_pos (by omega), if_neg (by omega), utf8SM_cons_some]
            dsimp only
            rw [if_pos (by omega), if_pos (by omega)]
            congr 1
            refine Eq.trans ?_ hofn
            congr 1
            omega
          · rcases Nat.lt_or_ge c.toNat 0xE000 with hq3 | hq3
            · have hd : c.toNat < 0xD800 := by
                rcases hv with h | ⟨h, _⟩ <;> omega
              rw [if_neg (by omega), if_pos (by omega)]
              dsimp only
              rw [List.nil_append, utf8SM_cons_some]
              dsimp only
              rw [if_pos (by omega), if_neg (by omega), utf8SM_cons_some]
              dsimp only
              rw [if_pos (by omega), if_pos (by omega)]
              congr 1
              refine Eq.trans ?_ hofn
              congr 1
              omega
            · rw [if_neg (by omega), if_neg (by omega), if_pos (by omega)]
              dsimp only
              rw [List.nil_append, utf8SM_cons_some]
              dsimp only
              rw [if_pos (by omega), if_neg (by omega), utf8SM_cons_some]
              dsimp only
              rw [if_pos (by omega), if_pos (by omega)]
              congr 1
              refine Eq.trans ?_ hofn
              congr 1
              omega
      · rw [if_neg h3]
        have h4 : c.toNat < 0x110000 := by
          rcases hv with h | ⟨_, h⟩ <;> omega
        rw [List.cons_append, List.cons_append, List.cons_append,
          List.cons_append, List.nil_append, utf8SM_cons_none]
        unfold utf8Step1
        rw [if_neg (by omega), if_neg (by omega), if_neg (by omega),
          if_neg (by omega), if_neg (by omega), if_neg (by omega)]
        rcases Nat.lt_or_ge c.toNat 0x40000 with hq | hq
        · rw [if_pos (by omega)]
          dsimp only
          rw [List.nil_append, utf8SM_cons_some]
          dsimp only
          rw [if_pos (by omega), if_neg (by omega), utf8SM_cons_some]
          dsimp only
          rw [if_pos (by omega), if_neg (by omega), utf8SM_cons_some]
          dsimp only
          rw [if_pos (by omega), if_pos (by omega)]
          congr 1
          refine Eq.trans ?_ hofn
          congr 1
          omega
        · rcases Nat.lt_or_ge c.toNat 0x100000 with hq2 | hq2
          · rw [if_neg (by omega), if_pos (by omega)]
            dsimp only
            rw [List.nil_append, utf8SM_cons_some]
            dsimp only
            rw [if_pos (by omega), if_neg (by omega), utf8SM_cons_some]
            dsimp only
            rw [if_pos (by omega), if_neg (by omega), utf8SM_cons_some]
            dsimp only
            rw [if_pos (by omega), if_pos (by omega)]
            congr 1
            refine Eq.trans ?_ hofn
            congr 1
            omega
          · rw [if_neg (by omega), if_neg (by omega), if_pos (by omega)]
            dsimp only
            rw [List.nil_append, utf8SM_cons_some]
            dsimp only
            rw [if_pos (by omega), if_neg (by omega), utf8SM_cons_some]
            dsimp only
            rw [if_pos (by omega), if_neg (by omega), utf8SM_cons_some]
            dsimp only
            rw [if_pos (by omega), if_pos (by omega)]
            congr 1
            refine Eq.trans ?_ hofn
            congr 1
            omega

theorem utf8Decode_flat (ds : List Char) :
    utf8Decode (ds.flatMap (fun c => utf8Bytes c.toNat)) = ds := by
  induction ds with
  | nil => rfl
  | cons c ds ih =>
    rw [List.flatMap_cons]
    unfold utf8Decode
    rw [utf8SM_encode]
    unfold utf8Decode at ih
    rw [ih]

theorem unquoteSM_cons_normal (x : Char) (rest : List Char)
    (pend : List Nat) :
    unquoteSM (x :: rest) .normal pend =
      if x = '%' then unquoteSM rest .afterPct pend
      else flushBytes pend ++ x :: unquoteSM rest .normal [] := rfl

theorem unquoteSM_cons_afterPct (x : Char) (rest : List Char)
    (pend : List Nat) :
    unquoteSM (x :: rest) .afterPct pend =
      match hexVal x with
      | some h1 => unquoteSM rest (.afterHex x h1) pend
      | none =>
        if x = '%' then flushBytes pend ++ '%' :: unquoteSM rest .afterPct []
        else flushBytes pend ++ '%' :: x :: unquoteSM rest .normal [] := rfl

theorem unquoteSM_cons_afterHex (x : Char) (rest : List Char) (c1 : Char)
    (h1 : Nat) (pend : List Nat) :
    unquoteSM (x :: rest) (.afterHex c1 h1) pend =
      match hexVal x with
      | some h2 => unquoteSM rest .normal ((h1 * 16 + h2) :: pend)
      | none =>
        if x = '%' then
          flushBytes pend ++ '%' :: c1 :: unquoteSM rest .afterPct []
        else flushBytes pend ++ '%' :: c1 :: x :: unquoteSM rest .normal [] :=
  rfl

theorem ne_char_of_toNat {x d : Char} {m : Nat} (hd : d.toNat = m)
    (hx : x.toNat ≠ m) : ¬ x = d := by
  intro h
  rw [char_eq_iff_toNat, hd] at h
  exact hx h

theorem unquoteSM_afterPct_hex (x : Char) (rest : List Char)
    (pend : List Nat) (h1 : Nat) (hx : hexVal x = some h1) :
    unquoteSM (x :: rest) .afterPct pend =
      unquoteSM rest (.afterHex x h1) pend := by
  rw [unquoteSM_cons_afterPct, hx]

theorem unquoteSM_afterHex_hex (x : Char) (rest : List Char) (c1 : Char)
    (h1 : Nat) (pend : List Nat) (h2 : Nat) (hx : hexVal x = some h2) :
    unquoteSM (x :: rest) (.afterHex c1 h1) pend =
      unquoteSM rest .normal ((h1 * 16 + h2) :: pend) := by
  rw [unquoteSM_cons_afterHex, hx]

theorem unquoteSM_percent_run :
    ∀ (bs : List Nat), (∀ b ∈ bs, b < 256) →
      ∀ (t : List Char) (pend : List Nat),
        unquoteSM (bs.flatMap percentHex ++ t) .normal pend =
          unquoteSM t .normal (bs.reverse ++ pend) := by
  intro bs
  induction bs with
  | nil => intro _ t pend; simp
  | cons b bs ih =>
    intro hb t pend
    have hb256 : b < 256 := hb b (List.mem_cons_self b bs)
    rw [List.flatMap_cons,
      show percentHex b =
        ['%', hexDigitChar (b / 16), hexDigitChar (b % 16)] from rfl]
    simp only [List.cons_append, List.nil_append, List.append_assoc]
    rw [unquoteSM_cons_normal, if_pos rfl,
      unquoteSM_afterPct_hex _ _ _ _ (hexVal_hexDigitChar (by omega)),
      unquoteSM_afterHex_hex _ _ _ _ _ _ (hexVal_hexDigitChar (by omega)),
      show b / 16 * 16 + b % 16 = b from by omega,
      ih (fun b2 hb2 => hb b2 (List.mem_cons_of_mem b hb2)) t (b :: pend)]
    rw [List.reverse_cons, List.append_assoc]
    rfl

/-- The decoded image of one quote_plus-encoded character after the
plus-to-space replacement. -/
def eform (c : Char) : List Char :=
  if c = ' ' then [' '] else quoteChar c

theorem plusToSpace_quoteChar (c x : Char) (hx : x ∈ quoteChar c) :
    plusToSpace x = x := by
  unfold plusToSpace
  rcases quoteChar_mem c x hx with hs | h37 | hd | hh
  · rw [if_neg (ne_char_of_toNat (show Char.toNat '+' = 43 from rfl)
      (by rw [isSafeChar_iff] at hs; omega))]
  · rw [if_neg (ne_char_of_toNat (show Char.toNat '+' = 43 from rfl)
      (by omega))]
  · rw [if_neg (ne_char_of_toNat (show Char.toNat '+' = 43 from rfl)
      (by omega))]
  · rw [if_neg (ne_char_of_toNat (show Char.toNat '+' = 43 from rfl)
      (by omega))]

theorem map_id_of_mem {α : Type} (f : α → α) :
    ∀ (l : List α), (∀ x ∈ l, f x = x) → l.map f = l := by
  intro l
  induction l with
  | nil => intro _; rfl
  | cons a l ih =>
    intro h
    rw [List.map_cons, h a (List.mem_cons_self a l),
      ih (fun x hx => h x (List.mem_cons_of_mem a hx))]

theorem quotePlusChar_map_plus (c : Char) :
    (quotePlusChar c).map plusToSpace = eform c := by
  unfold quotePlusChar eform
  split
  · rfl
  · exact map_id_of_mem plusToSpace (quoteChar c) (plusToSpace_quoteChar c)

theorem eform_space : eform ' ' = [' '] := rfl

theorem eform_safe (c : Char) (hsp : ¬ c = ' ') (hs : isSafeChar c = true) :
    eform c = [c] := by
  unfold eform quoteChar
  rw [if_neg hsp, if_pos hs]

theorem eform_general (c : Char) (hsp : ¬ c = ' ')
    (hs : ¬ isSafeChar c = true) :
    eform c = (utf8Bytes c.toNat).flatMap percentHex := by
  unfold eform quoteChar
  rw [if_neg hsp, if_neg hs]

theorem unquoteSM_encode :
    ∀ (cs ds : List Char),
      unquoteSM (cs.flatMap eform) .normal
        ((ds.flatMap (fun c => utf8Bytes c.toNat)).reverse) = ds ++ cs := by
  intro cs
  induction cs with
  | nil =>
    intro ds
    show flushBytes _ = _
    unfold flushBytes
    rw [List.reverse_reverse, utf8Decode_flat, List.append_nil]
  | cons c cs ih =>
    intro ds
    have hflush : flushBytes ((ds.flatMap
        (fun c => utf8Bytes c.toNat)).reverse) = ds := by
      unfold flushBytes
      rw [List.reverse_reverse, utf8Decode_flat]
    have ihnil : unquoteSM (cs.flatMap eform) .normal [] = cs := by
      have h0 := ih []
      simpa using h0
    rw [List.flatMap_cons]
    by_cases hsp : c = ' '
    · subst hsp
      rw [eform_space, List.cons_append, List.nil_append,
        unquoteSM_cons_normal,
        if_neg (ne_char_of_toNat (show Char.toNat '%' = 37 from rfl)
          (by decide)),
        hflush, ihnil]
    · by_cases hsafe : isSafeChar c = true
      · rw [eform_safe c hsp hsafe, List.cons_append, List.nil_append,
          unquoteSM_cons_normal,
          if_neg (ne_char_of_toNat (show Char.toNat '%' = 37 from rfl)
            (by rw [isSafeChar_iff] at hsafe; omega)),
          hflush, ihnil]
      · rw [eform_general c hsp hsafe]
        have hn : c.toNat < 0x110000 := by
          rcases char_toNat_valid c with h | ⟨_, h⟩ <;> omega
        rw [unquoteSM_percent_run (utf8Bytes c.toNat)
          (fun b hb => utf8Bytes_lt_256 hn b hb) (cs.flatMap eform) _]
        have hpend : (utf8Bytes c.toNat).reverse ++
            (ds.flatMap (fun c => utf8Bytes c.toNat)).reverse =
            ((ds ++ [c]).flatMap (fun c => utf8Bytes c.toNat)).reverse := by
          rw [List.flatMap_append, List.reverse_append]
          simp
        rw [hpend, ih (ds ++ [c])]
        simp

theorem unquote_plus_quotePlusL (s : String) :
    unquote_plus (quotePlusL s.toList) = s := by
  unfold unquote_plus unquoteL
  have hmap : (quotePlusL s.toList).map plusToSpace =
      s.toList.flatMap eform := by
    unfold quotePlusL
    rw [List.map_flatMap]
    exact List.flatMap_congr (fun c _ => quotePlusChar_map_plus c)
  rw [hmap]
  have h := unquoteSM_encode s.toList []
  simp only [List.flatMap_nil, List.reverse_nil, List.nil_append] at h
  rw [h, String.asString_toList]

/-! ## Splitting lemmas -/

theorem splitFirstP_none (p : Char → Bool) :
    ∀ (l : List Char), (∀ x ∈ l, p x = false) → splitFirstP p l = (l, none) := by
  intro l
  induction l with
  | nil => intro _; rfl
  | cons c rest ih =>
    intro h
    unfold splitFirstP
    rw [h c (List.mem_cons_self c rest), ih
      (fun x hx => h x (List.mem_cons_of_mem c hx))]
    simp

theorem splitFirstP_append (p : Char → Bool) :
    ∀ (a : List Char) (c : Char) (b : List Char),
      (∀ x ∈ a, p x = false) → p c = true →
      splitFirstP p (a ++ c :: b) = (a, some b) := by
  intro a
  induction a with
  | nil =>
    intro c b _ hc
    rw [List.nil_append]
    unfold splitFirstP
    rw [hc]
    simp
  | cons x a ih =>
    intro c b h hc
    rw [List.cons_append]
    unfold splitFirstP
    rw [h x (List.mem_cons_self x a),
      ih c b (fun y hy => h y (List.mem_cons_of_mem x hy)) hc]
    simp

theorem splitAllOn_ne_nil (sep : Char) :
    ∀ (l : List Char), splitAllOn sep l ≠ [] := by
  intro l
  induction l with
  | nil => simp [splitAllOn]
  | cons c rest _ =>
    unfold splitAllOn
    cases h : splitAllOn sep rest with
    | nil => simp
    | cons x t =>
      simp only [h]
      split <;> simp

theorem splitAllOn_ne (sep : Char) :
    ∀ (l : List Char), (∀ x ∈ l, ¬ x = sep) → splitAllOn sep l = [l] := by
  intro l
  induction l with
  | nil => intro _; rfl
  | cons c rest ih =>
    intro h
    unfold splitAllOn
    rw [ih (fun x hx => h x (List.mem_cons_of_mem c hx))]
    simp [h c (List.mem_cons_self c rest)]

theorem splitAllOn_append (sep : Char) :
    ∀ (a b : List Char), (∀ x ∈ a, ¬ x = sep) →
      splitAllOn sep (a ++ sep :: b) = a :: splitAllOn sep b := by
  intro a
  induction a with
  | nil =>
    intro b _
    rw [List.nil_append]
    cases h : splitAllOn sep b with
    | nil => exact absurd h (splitAllOn_ne_nil sep b)
    | cons x t =>
      unfold splitAllOn
      rw [h]
      simp
  | cons c a ih =>
    intro b h
    rw [List.cons_append]
    conv_lhs => unfold splitAllOn
    rw [ih b (fun y hy => h y (List.mem_cons_of_mem c hy))]
    simp [h c (List.mem_cons_self c a)]

/-! ## Parsing back an encoded query string -/

theorem quotePlusL_not_special (l : List Char) (m : Nat)
    (hm : m = 38 ∨ m = 61 ∨ m = 63 ∨ m = 35 ∨ m = 58 ∨ m = 47) :
    ∀ x ∈ quotePlusL l, x.toNat ≠ m := by
  intro x hx
  rcases quotePlusL_mem l x hx with h43 | hs | h37 | hd | hh
  · omega
  · rw [isSafeChar_iff] at hs
    omega
  · omega
  · omega
  · omega

theorem encodePair_ne_amp (kv : String × String) :
    ∀ x ∈ encodePair kv, ¬ x = '&' := by
  intro x hx
  unfold encodePair at hx
  rw [List.mem_append] at hx
  rcases hx with hx | hx
  · exact ne_char_of_toNat (show Char.toNat '&' = 38 from rfl)
      (quotePlusL_not_special _ 38 (Or.inl rfl) x hx)
  · rw [List.mem_cons] at hx
    rcases hx with hx | hx
    · subst hx; decide
    · exact ne_char_of_toNat (show Char.toNat '&' = 38 from rfl)
        (quotePlusL_not_special _ 38 (Or.inl rfl) x hx)

theorem utf8Bytes_ne_nil (n : Nat) : utf8Bytes n ≠ [] := by
  unfold utf8Bytes
  split
  · simp
  · split
    · simp
    · split <;> simp

theorem quotePlusChar_ne_nil (c : Char) : quotePlusChar c ≠ [] := by
  unfold quotePlusChar
  split
  · simp
  · unfold quoteChar
    split
    · simp
    · cases hb : utf8Bytes c.toNat with
      | nil => exact absurd hb (utf8Bytes_ne_nil _)
      | cons b bs => simp [List.flatMap_cons, percentHex]

theorem quotePlusL_eq_nil (l : List Char) (h : quotePlusL l = []) : l = [] := by
  cases l with
  | nil => rfl
  | cons c rest =>
    unfold quotePlusL at h
    rw [List.flatMap_cons] at h
    exact absurd (List.append_eq_nil.mp h).1 (quotePlusChar_ne_nil c)

theorem toList_eq_nil (s : String) (h : s.toList = []) : s = "" := by
  rw [← String.asString_toList s, h]
  rfl

theorem parseQsComponent_encodePair (kv : String × String) :
    parseQsComponent (encodePair kv) =
      if kv.2 = "" then none else some kv := by
  unfold parseQsComponent encodePair
  rw [if_neg (by simp)]
  rw [splitFirstP_append (fun c => c = '=') (quotePlusL kv.1.toList) '='
    (quotePlusL kv.2.toList)
    (fun x hx => decide_eq_false
      (ne_char_of_toNat (show Char.toNat '=' = 61 from rfl)
        (quotePlusL_not_special _ 61 (Or.inr (Or.inl rfl)) x hx)))
    (by simp)]
  dsimp only
  by_cases hv : kv.2 = ""
  · rw [if_pos hv, hv]
    rw [show quotePlusL (String.toList "") = [] from rfl]
    rfl
  · rw [if_neg hv]
    rw [if_neg (by
      intro hemp
      rw [List.isEmpty_eq_true] at hemp
      exact hv (toList_eq_nil kv.2 (quotePlusL_eq_nil _ hemp)))]
    rw [unquote_plus_quotePlusL kv.1, unquote_plus_quotePlusL kv.2]

theorem urlencodeL_cons₂ (kv kv2 : String × String)
    (rest : List (String × String)) :
    urlencodeL (kv :: kv2 :: rest) =
      encodePair kv ++ '&' :: urlencodeL (kv2 :: rest) := rfl

theorem parse_qsl_urlencodeL :
    ∀ (qp : List (String × String)),
      parse_qsl (urlencodeL qp) = qp.filter (fun kv => !(kv.2 == "")) := by
  intro qp
  induction qp with
  | nil => rfl
  | cons kv rest ih =>
    cases rest with
    | nil =>
      show parse_qsl (encodePair kv) = _
      unfold parse_qsl
      rw [splitAllOn_ne '&' (encodePair kv) (encodePair_ne_amp kv)]
      rw [show List.filterMap parseQsComponent [encodePair kv] =
        match parseQsComponent (encodePair kv) with
        | none => []
        | some b => [b] from by
          rw [List.filterMap_cons]
          split <;> simp_all]
      rw [parseQsComponent_encodePair kv]
      by_cases hv : kv.2 = ""
      · rw [if_pos hv]
        simp [hv]
      · rw [if_neg hv]
        simp [hv]
    | cons kv2 rest2 =>
      rw [urlencodeL_cons₂]
      unfold parse_qsl
      rw [splitAllOn_append '&' _ _ (encodePair_ne_amp kv)]
      rw [List.filterMap_cons, parseQsComponent_encodePair kv]
      rw [show List.filterMap parseQsComponent
        (splitAllOn '&' (urlencodeL (kv2 :: rest2))) =
        parse_qsl (urlencodeL (kv2 :: rest2)) from rfl, ih]
      by_cases hv : kv.2 = ""
      · rw [if_pos hv]
        simp [hv]
      · rw [if_neg hv]
        simp [hv]

/-! ## The collapsed first-value view of a query dict -/

/-- Whether the grouped dict parse_qs builds contains the key. -/
def hasKeyQs (d : List (String × List String)) (k : String) : Bool :=
  d.any (fun kv => kv.1 == k)

/-- First-occurrence collapse of a key-value sequence: what the dict
comprehension over parse_qs computes, expressed directly on parse_qsl
pairs. -/
def collapseFirst : List (String × String) → List (String × String)
  | [] => []
  | kv :: rest =>
    kv :: collapseFirst (rest.filter (fun kv2 => !(kv2.1 == kv.1)))
  termination_by l => l.length
  decreasing_by
    simp only [List.length_cons]
    exact Nat.lt_succ_of_le (List.length_filter_le _ _)

theorem collapseValues_cons (a : String × List String)
    (l : List (String × List String)) :
    collapseValues (a :: l) = (a.1, a.2.headD "") :: collapseValues l := rfl

theorem qsInsert_hasKey_collapse (k : String) (v : String) :
    ∀ (d : List (String × List String)), (∀ kv ∈ d, kv.2 ≠ []) →
      hasKeyQs d k = true →
      collapseValues (qsInsert d k v) = collapseValues d := by
  intro d
  induction d with
  | nil => intro _ hk; simp [hasKeyQs] at hk
  | cons kv rest ih =>
    intro hd hk
    unfold qsInsert
    by_cases h : kv.1 = k
    · rw [if_pos h, collapseValues_cons, collapseValues_cons]
      have hne : kv.2 ≠ [] := hd kv (List.mem_cons_self kv rest)
      cases hv : kv.2 with
      | nil => exact absurd hv hne
      | cons a t => simp
    · rw [if_neg h, collapseValues_cons, collapseValues_cons]
      have hk2 : hasKeyQs rest k = true := by
        unfold hasKeyQs at hk
        simp only [List.any_cons, Bool.or_eq_true] at hk
        rcases hk with hk | hk
        · exact absurd (by simpa using hk) h
        · exact hk
      rw [ih (fun x hx => hd x (List.mem_cons_of_mem kv hx)) hk2]

theorem qsInsert_not_hasKey (k : String) (v : String) :
    ∀ (d : List (String × List String)), hasKeyQs d k = false →
      qsInsert d k v = d ++ [(k, [v])] := by
  intro d
  induction d with
  | nil => intro _; rfl
  | cons kv rest ih =>
    intro hk
    unfold hasKeyQs at hk
    simp only [List.any_cons, Bool.or_eq_false_iff] at hk
    unfold qsInsert
    rw [if_neg (by simpa using hk.1)]
    rw [ih hk.2]
    rfl

theorem hasKeyQs_qsInsert (k : String) (v : String) (x : String) :
    ∀ (d : List (String × List String)),
      hasKeyQs (qsInsert d k v) x = (hasKeyQs d x || k == x) := by
  intro d
  induction d with
  | nil => simp [qsInsert, hasKeyQs]
  | cons kv rest ih =>
    unfold qsInsert
    by_cases h : kv.1 = k
    · rw [if_pos h]
      unfold hasKeyQs
      simp only [List.any_cons]
      subst h
      cases hkx : (kv.1 == x) <;> simp [hkx, hasKeyQs]
    · rw [if_neg h]
      unfold hasKeyQs
      simp only [List.any_cons]
      rw [show (rest.any (fun kv => kv.1 == x)) = hasKeyQs rest x from rfl,
        show List.any (qsInsert rest k v) (fun kv => kv.1 == x) =
          hasKeyQs (qsInsert rest k v) x from rfl, ih]
      cases hkx : (kv.1 == x) <;> simp

theorem qsInsert_vals_ne (k : String) (v : String) :
    ∀ (d : List (String × List String)), (∀ kv ∈ d, kv.2 ≠ []) →
      ∀ kv ∈ qsInsert d k v, kv.2 ≠ [] := by
  intro d
  induction d with
  | nil =>
    intro _ kv hkv
    simp only [qsInsert, List.mem_singleton] at hkv
    subst hkv
    simp
  | cons kv0 rest ih =>
    intro hd kv hkv
    unfold qsInsert at hkv
    by_cases h : kv0.1 = k
    · rw [if_pos h] at hkv
      rcases List.mem_cons.mp hkv with hh | hh
      · subst hh
        simp
      · exact hd kv (List.mem_cons_of_mem kv0 hh)
    · rw [if_neg h] at hkv
      rcases List.mem_cons.mp hkv with hh | hh
      · subst hh
        exact hd kv (List.mem_cons_self kv rest)
      · exact ih (fun x hx => hd x (List.mem_cons_of_mem kv0 hx)) kv hh

theorem collapseFirst_cons (kv : String × String)
    (rest : List (String × String)) :
    collapseFirst (kv :: rest) =
      kv :: collapseFirst (rest.filter (fun kv2 => !(kv2.1 == kv.1))) := by
  conv_lhs => unfold collapseFirst

theorem collapseValues_qsFold :
    ∀ (l : List (String × String)) (d : List (String × List String)),
      (∀ kv ∈ d, kv.2 ≠ []) →
      collapseValues (l.foldl (fun d kv => qsInsert d kv.1 kv.2) d) =
        collapseValues d ++
          collapseFirst (l.filter (fun kv => !(hasKeyQs d kv.1))) := by
  intro l
  induction l with
  | nil =>
    intro d _
    show collapseValues d = _
    rw [List.filter_nil]
    unfold collapseFirst
    rw [List.append_nil]
  | cons kv l ih =>
    intro d hd
    rw [List.foldl_cons, List.filter_cons]
    by_cases hk : hasKeyQs d kv.1 = true
    · rw [if_neg (by rw [hk]; simp)]
      rw [ih (qsInsert d kv.1 kv.2) (qsInsert_vals_ne kv.1 kv.2 d hd)]
      rw [qsInsert_hasKey_collapse kv.1 kv.2 d hd hk]
      congr 2
      apply List.filter_congr
      intro x _
      rw [hasKeyQs_qsInsert]
      congr 1
      cases hx : hasKeyQs d x.1
      · cases hke : (kv.1 == x.1)
        · simp
        · rw [beq_iff_eq] at hke
          rw [← hke] at hx
          rw [hx] at hk
          simp at hk
      · simp
    · have hkf : hasKeyQs d kv.1 = false := by
        cases hfk : hasKeyQs d kv.1
        · rfl
        · exact absurd hfk hk
      rw [if_pos (by rw [hkf]; simp)]
      rw [ih (qsInsert d kv.1 kv.2) (qsInsert_vals_ne kv.1 kv.2 d hd)]
      rw [qsInsert_not_hasKey kv.1 kv.2 d hkf]
      rw [show collapseValues (d ++ [(kv.1, [kv.2])]) =
        collapseValues d ++ [(kv.1, kv.2)] from by
          unfold collapseValues
          rw [List.map_append]
          rfl]
      rw [collapseFirst_cons, List.append_assoc]
      congr 1
      show (kv.1, kv.2) :: collapseFirst _ = kv :: collapseFirst _
      have hsym : ∀ (a b : String), (a == b) = (b == a) := by
        intro a b
        cases h : (b == a)
        · simp only [beq_eq_false_iff_ne] at h ⊢
          exact fun he => h he.symm
        · simp only [beq_iff_eq] at h ⊢
          exact h.symm
      have hkapp : ∀ x : String, hasKeyQs (d ++ [(kv.1, [kv.2])]) x =
          (hasKeyQs d x || kv.1 == x) := by
        intro x
        unfold hasKeyQs
        rw [List.any_append]
        simp
      have hfilt : l.filter
          (fun x => !(hasKeyQs (d ++ [(kv.1, [kv.2])]) x.1)) =
          (l.filter (fun x => !(hasKeyQs d x.1))).filter
            (fun x2 => !(x2.1 == kv.1)) := by
        rw [List.filter_filter]
        apply List.filter_congr
        intro x _
        rw [hkapp x.1]
        cases h1 : hasKeyQs d x.1 <;> cases h2 : (kv.1 == x.1) <;>
          simp [h1, h2, hsym x.1 kv.1]
      rw [hfilt]

theorem collapse_parse_qs (q : List Char) :
    collapseValues (parse_qs q) = collapseFirst (parse_qsl q) := by
  unfold parse_qs
  rw [collapseValues_qsFold (parse_qsl q) [] (by simp)]
  rw [show collapseValues [] = [] from rfl, List.nil_append]
  congr 1
  rw [show (fun kv => !(hasKeyQs [] (kv.1 : String))) =
    (fun (_ : String × String) => true) from by
      funext kv
      rfl]
  exact List.filter_true _

/-! ## Dictionary lookups through the collapse -/

theorem dictGet_cons (kv : String × String) (l : List (String × String))
    (k : String) :
    dictGet (kv :: l) k =
      if kv.1 == k then some kv.2 else dictGet l k := by
  unfold dictGet
  rw [List.find?_cons]
  cases h : (kv.1 == k) <;> simp [h]

theorem hasKeyD_cons (kv : String × String) (l : List (String × String))
    (k : String) :
    hasKeyD (kv :: l) k = ((kv.1 == k) || hasKeyD l k) := by
  unfold hasKeyD
  rw [List.any_cons]

theorem filterMap_filter_none {α β : Type} (sel : α → Option β)
    (p : α → Bool) :
    ∀ (l : List α), (∀ x, p x = false → sel x = none) →
      (l.filter p).filterMap sel = l.filterMap sel := by
  intro l
  induction l with
  | nil => intro _; rfl
  | cons a l ih =>
    intro h
    rw [List.filter_cons]
    cases hp : p a
    · rw [if_neg (by simp)]
      rw [List.filterMap_cons, h a hp]
      exact ih h
    · rw [if_pos (by simp)]
      rw [List.filterMap_cons, List.filterMap_cons]
      cases sel a <;> simp [ih h]

theorem any_filter_subsume {α : Type} (p q : α → Bool) :
    ∀ (l : List α), (∀ x, q x = false → p x = false) →
      (l.filter q).any p = l.any p := by
  intro l
  induction l with
  | nil => intro _; rfl
  | cons a l ih =>
    intro h
    rw [List.filter_cons]
    cases hq : q a
    · rw [if_neg (by simp)]
      rw [List.any_cons, h a hq, ih h]
      simp
    · rw [if_pos (by simp)]
      rw [List.any_cons, List.any_cons, ih h]

theorem dictGet_collapseFirst (k : String) :
    ∀ (l : List (String × String)),
      dictGet (collapseFirst l) k =
        (l.filterMap
          (fun kv => if kv.1 = k then some kv.2 else none)).head? := by
  intro l
  induction l using collapseFirst.induct with
  | case1 => unfold collapseFirst; rfl
  | case2 kv rest ih =>
    rw [collapseFirst_cons, dictGet_cons, List.filterMap_cons]
    by_cases h : kv.1 = k
    · rw [if_pos (by simp [h]), if_pos h]
      rfl
    · rw [if_neg (by simp [h]), if_neg h, ih]
      congr 1
      apply filterMap_filter_none
      intro x hx
      simp only [Bool.not_eq_false', beq_iff_eq] at hx
      rw [if_neg (by rw [hx]; exact h)]

theorem hasKeyD_collapseFirst (k : String) :
    ∀ (l : List (String × String)),
      hasKeyD (collapseFirst l) k = l.any (fun kv => kv.1 == k) := by
  intro l
  induction l using collapseFirst.induct with
  | case1 => unfold collapseFirst; rfl
  | case2 kv rest ih =>
    rw [collapseFirst_cons, hasKeyD_cons, List.any_cons, ih]
    cases h : (kv.1 == k)
    · rw [Bool.false_or, Bool.false_or]
      apply any_filter_subsume
      intro x hx
      simp only [Bool.not_eq_false', beq_iff_eq] at hx
      rw [hx]
      exact h
    · rw [Bool.true_or, Bool.true_or]

theorem dictGet_dictSet_self (k : String) (v : String) :
    ∀ (l : List (String × String)), dictGet (dictSet l k v) k = some v := by
  intro l
  induction l with
  | nil => simp [dictSet, dictGet_cons]
  | cons kv rest ih =>
    unfold dictSet
    by_cases h : kv.1 = k
    · rw [if_pos h, dictGet_cons]
      simp
    · rw [if_neg h, dictGet_cons, if_neg (by simpa using h)]
      exact ih

theorem dictGet_dictSet_ne (k v k' : String) (h : ¬ k' = k) :
    ∀ (l : List (String × String)),
      dictGet (dictSet l k v) k' = dictGet l k' := by
  intro l
  induction l with
  | nil =>
    simp only [dictSet, dictGet_cons]
    rw [if_neg (by simp; exact fun he => h he.symm)]
  | cons kv rest ih =>
    unfold dictSet
    by_cases hk : kv.1 = k
    · rw [if_pos hk, dictGet_cons, dictGet_cons,
        if_neg (by simp; exact fun he => h he.symm),
        if_neg (by rw [hk]; simp; exact fun he => h he.symm)]
    · rw [if_neg hk, dictGet_cons, dictGet_cons, ih]

theorem hasKeyD_dictSet_ne (k v k' : String) (h : ¬ k' = k) :
    ∀ (l : List (String × String)),
      hasKeyD (dictSet l k v) k' = hasKeyD l k' := by
  intro l
  induction l with
  | nil =>
    simp only [dictSet, hasKeyD_cons]
    rw [show (k == k') = false from by simp; exact fun he => h he.symm]
    rfl
  | cons kv rest ih =>
    unfold dictSet
    by_cases hk : kv.1 = k
    · rw [if_pos hk, hasKeyD_cons, hasKeyD_cons,
        show (k == k') = false from by simp; exact fun he => h he.symm,
        show (kv.1 == k') = false from by
          rw [hk]; simp; exact fun he => h he.symm]
    · rw [if_neg hk, hasKeyD_cons, hasKeyD_cons, ih]

/-! ## Nonempty values survive the encode-parse cycle -/

theorem utf8Step1_none_ne (b : Nat) :
    (utf8Step1 b).2 = none → ¬ (utf8Step1 b).1 = [] := by
  unfold utf8Step1
  repeat' split
  all_goals simp

theorem utf8SM_ne_nil :
    ∀ (bs : List Nat) (st : Option Utf8State),
      (¬ bs = [] ∨ ¬ st = none) → ¬ utf8SM bs st = [] := by
  intro bs
  induction bs with
  | nil =>
    intro st h
    cases st with
    | none =>
      rcases h with h | h
      · exact absurd rfl h
      · exact absurd rfl h
    | some st => simp [utf8SM]
  | cons b rest ih =>
    intro st _
    cases st with
    | none =>
      show ¬ ((utf8Step1 b).1 ++ utf8SM rest (utf8Step1 b).2) = []
      intro happ
      rw [List.append_eq_nil] at happ
      cases h2 : (utf8Step1 b).2 with
      | none => exact utf8Step1_none_ne b h2 happ.1
      | some st2 =>
        refine ih (some st2) (Or.inr (by simp)) ?_
        rw [← h2]
        exact happ.2
    | some st =>
      rw [utf8SM_cons_some]
      split
      · split
        · simp
        · exact ih _ (Or.inr (by simp))
      · simp

theorem unquoteSM_ne_nil :
    ∀ (l : List Char) (st : PctState) (pend : List Nat),
      (¬ l = [] ∨ ¬ pend = [] ∨ ¬ st = .normal) →
      ¬ unquoteSM l st pend = [] := by
  intro l
  induction l with
  | nil =>
    intro st pend h
    cases st with
    | normal =>
      rcases h with h | h | h
      · exact absurd rfl h
      · show ¬ flushBytes pend = []
        unfold flushBytes utf8Decode
        exact utf8SM_ne_nil pend.reverse none (Or.inl (by simpa using h))
      · exact absurd rfl h
    | afterPct => simp [unquoteSM]
    | afterHex c1 h1 => simp [unquoteSM]
  | cons c rest ih =>
    intro st pend _
    cases st with
    | normal =>
      rw [unquoteSM_cons_normal]
      split
      · exact ih .afterPct pend (Or.inr (Or.inr (by simp)))
      · simp
    | afterPct =>
      rw [unquoteSM_cons_afterPct]
      split
      · exact ih (.afterHex _ _) pend (Or.inr (Or.inr (by simp)))
      · split <;> simp
    | afterHex c1 h1 =>
      rw [unquoteSM_cons_afterHex]
      split
      · exact ih .normal _ (Or.inr (Or.inl (by simp)))
      · split <;> simp

theorem asString_eq_empty (l : List Char) (h : l.asString = "") : l = [] := by
  have h2 := congrArg String.toList h
  rwa [List.toList_asString] at h2

theorem unquote_plus_ne_empty (v : List Char) (hv : ¬ v = []) :
    ¬ unquote_plus v = "" := by
  intro h
  unfold unquote_plus unquoteL at h
  have h2 := asString_eq_empty _ h
  refine unquoteSM_ne_nil (v.map plusToSpace) .normal []
    (Or.inl (by simpa using hv)) h2

theorem parse_qsl_val_ne (q : List Char) :
    ∀ kv ∈ parse_qsl q, ¬ kv.2 = "" := by
  intro kv hkv
  unfold parse_qsl at hkv
  rw [List.mem_filterMap] at hkv
  obtain ⟨comp, _, hc⟩ := hkv
  unfold parseQsComponent at hc
  split at hc
  · exact Option.noConfusion hc
  · split at hc
    · exact Option.noConfusion hc
    · rename_i nm v heq
      split at hc
      · exact Option.noConfusion hc
      · rename_i hvne
        rw [Option.some.injEq] at hc
        rw [← hc]
        exact unquote_plus_ne_empty v (by simpa using hvne)

/-! ## URL splitting of a rebuilt URL -/

theorem splitFirstP_fst_not (p : Char → Bool) :
    ∀ (l : List Char), ∀ x ∈ (splitFirstP p l).1, p x = false := by
  intro l
  induction l with
  | nil => intro x hx; simp [splitFirstP] at hx
  | cons c rest ih =>
    intro x hx
    unfold splitFirstP at hx
    by_cases h : p c = true
    · rw [if_pos h] at hx
      simp at hx
    · rw [if_neg h] at hx
      simp only [List.mem_cons] at hx
      rcases hx with hx | hx
      · subst hx
        exact Bool.eq_false_iff.mpr h
      · exact ih x hx

theorem splitFirstP_fst_subset (p : Char → Bool) :
    ∀ (l : List Char), ∀ x ∈ (splitFirstP p l).1, x ∈ l := by
  intro l
  induction l with
  | nil => intro x hx; simp [splitFirstP] at hx
  | cons c rest ih =>
    intro x hx
    unfold splitFirstP at hx
    by_cases h : p c = true
    · rw [if_pos h] at hx
      simp at hx
    · rw [if_neg h] at hx
      simp only [List.mem_cons] at hx
      rcases hx with hx | hx
      · exact hx ▸ List.mem_cons_self c rest
      · exact List.mem_cons_of_mem c (ih x hx)

theorem schemeChar_ne_special (c : Char) (h : schemeChar c = true) :
    ¬ c = ':' ∧ ¬ c = '/' ∧ ¬ c = '?' ∧ ¬ c = '#' := by
  rw [schemeChar_iff] at h
  refine ⟨ne_char_of_toNat (show Char.toNat ':' = 58 from rfl) (by omega),
    ne_char_of_toNat (show Char.toNat '/' = 47 from rfl) (by omega),
    ne_char_of_toNat (show Char.toNat '?' = 63 from rfl) (by omega),
    ne_char_of_toNat (show Char.toNat '#' = 35 from rfl) (by omega)⟩

theorem urlsplitL_scheme_chars (url : List Char) :
    ∀ c ∈ (urlsplitL url).scheme, schemeChar c = true := by
  intro c hc
  unfold urlsplitL at hc
  simp only at hc
  unfold splitScheme at hc
  rcases hsp : splitFirstP (fun c => c = ':') url with ⟨pre, post⟩
  rw [hsp] at hc
  cases post with
  | none => simp at hc
  | some rest =>
    simp only at hc
    by_cases hv : validSchemePre pre = true
    · rw [if_pos hv] at hc
      simp only [List.mem_map] at hc
      obtain ⟨c0, hc0, hlow⟩ := hc
      unfold validSchemePre at hv
      cases pre with
      | nil => simp at hc0
      | cons p0 ps =>
        simp only [Bool.and_eq_true, List.all_eq_true] at hv
        have hs0 : schemeChar c0 = true := hv.2 c0 hc0
        rw [← hlow, schemeChar_iff, toLower_toNat]
        rw [schemeChar_iff] at hs0
        split <;> omega
    · rw [if_neg hv] at hc
      simp at hc

theorem urlsplitL_netloc_chars (url : List Char) :
    ∀ c ∈ (urlsplitL url).netloc, ¬(c = '/' ∨ c = '?' ∨ c = '#') := by
  intro c hc
  unfold urlsplitL at hc
  simp only at hc
  unfold splitNetloc at hc
  rcases hs : splitScheme url with ⟨scheme, rest0⟩
  rw [hs] at hc
  simp only at hc
  rcases rest0 with _ | ⟨c1, _ | ⟨c2, rest⟩⟩
  · simp at hc
  · simp at hc
  · simp only at hc
    by_cases hslash : c1 = '/' ∧ c2 = '/'
    · rw [if_pos hslash] at hc
      rw [List.span_eq_take_drop] at hc
      simp only at hc
      have := List.mem_takeWhile_imp hc
      simp only [Bool.not_eq_true', Bool.or_eq_false_iff] at this
      push_neg
      refine ⟨?_, ?_, ?_⟩
      · simpa using this.1.1
      · simpa using this.1.2
      · simpa using this.2
    · rw [if_neg hslash] at hc
      simp at hc

theorem urlsplitL_path_chars (url : List Char) :
    ∀ c ∈ (urlsplitL url).path, ¬(c = '?' ∨ c = '#') := by
  intro c hc
  unfold urlsplitL at hc
  simp only at hc
  intro hor
  have hnotq := splitFirstP_fst_not (fun c => c = '?') _ c hc
  have hsub := splitFirstP_fst_subset (fun c => c = '?') _ c hc
  have hnoth := splitFirstP_fst_not (fun c => c = '#') _ c hsub
  rcases hor with h | h
  · rw [h] at hnotq
    simp at hnotq
  · rw [h] at hnoth
    simp at hnoth

theorem splitSemiSeg_fst_subset (p : List Char) :
    ∀ c ∈ (splitSemiSeg p).1, c ∈ p := by
  intro c hc
  unfold splitSemiSeg at hc
  by_cases hs : charIn '/' p = true
  · rw [if_pos hs] at hc
    simp only at hc
    rcases hsp : splitFirstP (fun c => c = ';')
      ((p.reverse.span (fun c => !(c = '/'))).1.reverse) with ⟨a, ps⟩
    rw [hsp] at hc
    cases ps with
    | none => simpa using hc
    | some ps =>
      simp only [List.mem_append] at hc
      rcases hc with hc | hc
      · have : c ∈ (p.reverse.span (fun c => !(c = '/'))).2.reverse := hc
        rw [List.span_eq_take_drop] at this
        simp only [List.mem_reverse] at this
        have := List.dropWhile_subset _ this
        simpa using this
      · have hsub := splitFirstP_fst_subset (fun c => c = ';') _ c
          (by rw [hsp]; exact hc)
        rw [List.span_eq_take_drop] at hsub
        simp only [List.mem_reverse] at hsub
        have := List.takeWhile_subset _ hsub
        simpa using this
  · rw [if_neg hs] at hc
    rcases hsp : splitFirstP (fun c => c = ';') p with ⟨a, ps⟩
    rw [hsp] at hc
    cases ps with
    | none => simpa using hc
    | some ps =>
      simp only at hc
      exact splitFirstP_fst_subset (fun c => c = ';') p c (by rw [hsp]; exact hc)

theorem urlparseL_parts (url : List Char) :
    (urlparseL url).scheme = (urlsplitL url).scheme ∧
    (urlparseL url).netloc = (urlsplitL url).netloc ∧
    (urlparseL url).query = (urlsplitL url).query ∧
    (urlparseL url).fragment = (urlsplitL url).fragment := by
  unfold urlparseL
  simp only
  split <;> exact ⟨rfl, rfl, rfl, rfl⟩

theorem urlparseL_path_chars (url : List Char) :
    ∀ c ∈ (urlparseL url).path, ¬(c = '?' ∨ c = '#') := by
  intro c hc
  unfold urlparseL at hc
  simp only at hc
  split at hc
  · simp only at hc
    exact urlsplitL_path_chars url c (splitSemiSeg_fst_subset _ c hc)
  · exact urlsplitL_path_chars url c hc

theorem dropWhile_keep (p : Char → Bool) (c : Char) (hc : p c = false) :
    ∀ (xs tail : List Char), ∃ ys,
      List.dropWhile p (xs ++ c :: tail) = ys ++ c :: tail ∧
      ∀ y ∈ ys, y ∈ xs := by
  intro xs
  induction xs with
  | nil =>
    intro tail
    refine ⟨[], ?_, by simp⟩
    simp [List.dropWhile_cons, hc]
  | cons x xs ih =>
    intro tail
    by_cases hx : p x = true
    · obtain ⟨ys, h1, h2⟩ := ih tail
      refine ⟨ys, ?_, fun y hy => List.mem_cons_of_mem _ (h2 y hy)⟩
      rw [List.cons_append, List.dropWhile_cons, if_pos hx, h1]
    · refine ⟨x :: xs, ?_, fun y hy => hy⟩
      rw [List.cons_append, List.dropWhile_cons, if_neg hx]

theorem splitNetloc_keep (A E : List Char)
    (hA : ∀ a ∈ A, ¬(a = '?' ∨ a = '#')) :
    ∃ B, (splitNetloc (A ++ '?' :: E)).2 = B ++ '?' :: E ∧
      ∀ b ∈ B, ¬(b = '?' ∨ b = '#') := by
  rcases A with _ | ⟨a1, _ | ⟨a2, A2⟩⟩
  · rcases E with _ | ⟨e1, E1⟩
    · exact ⟨[], rfl, by simp⟩
    · refine ⟨[], ?_, by simp⟩
      show (splitNetloc ('?' :: e1 :: E1)).2 = [] ++ '?' :: e1 :: E1
      unfold splitNetloc
      simp only []
      rw [if_neg (fun h => absurd h.1 (by decide))]
      rfl
  · refine ⟨[a1], ?_, ?_⟩
    · show (splitNetloc (a1 :: '?' :: E)).2 = [a1] ++ '?' :: E
      unfold splitNetloc
      simp only []
      rw [if_neg (fun h => absurd h.2 (by decide))]
      rfl
    · intro b hb
      rw [List.mem_singleton] at hb
      exact hb ▸ hA a1 (by simp)
  · by_cases hsl : a1 = '/' ∧ a2 = '/'
    · obtain ⟨ys, h1, h2⟩ :=
        dropWhile_keep (fun c => !(c = '/' || c = '?' || c = '#')) '?'
          (by decide) A2 E
      refine ⟨ys, ?_, fun b hb =>
        hA b (List.mem_cons_of_mem _ (List.mem_cons_of_mem _ (h2 b hb)))⟩
      show (splitNetloc (a1 :: a2 :: (A2 ++ '?' :: E))).2 = ys ++ '?' :: E
      unfold splitNetloc
      simp only []
      rw [if_pos hsl, List.span_eq_take_drop]
      exact h1
    · refine ⟨a1 :: a2 :: A2, ?_, hA⟩
      show (splitNetloc (a1 :: a2 :: (A2 ++ '?' :: E))).2 =
        (a1 :: a2 :: A2) ++ '?' :: E
      unfold splitNetloc
      simp only []
      rw [if_neg hsl]
      rfl

theorem joinAmp_mem : ∀ (L : List (List Char)) (x : Char), x ∈ joinAmp L →
    x = '&' ∨ ∃ l ∈ L, x ∈ l := by
  intro L
  induction L with
  | nil => intro x hx; simp [joinAmp] at hx
  | cons a t ih =>
    intro x hx
    cases t with
    | nil => exact Or.inr ⟨a, by simp, by simpa [joinAmp] using hx⟩
    | cons b t2 =>
      rw [show joinAmp (a :: b :: t2) = a ++ '&' :: joinAmp (b :: t2) from rfl,
        List.mem_append] at hx
      rcases hx with hx | hx
      · exact Or.inr ⟨a, by simp, hx⟩
      · rw [List.mem_cons] at hx
        rcases hx with hx | hx
        · exact Or.inl hx
        · rcases ih x hx with h | ⟨l, hl, hxl⟩
          · exact Or.inl h
          · exact Or.inr ⟨l, List.mem_cons_of_mem _ hl, hxl⟩

theorem urlencodeL_no_qmark_hash (qp : List (String × String)) :
    ∀ x ∈ urlencodeL qp, ¬(x = '?' ∨ x = '#') := by
  intro x hx
  have hne : x.toNat ≠ 63 ∧ x.toNat ≠ 35 := by
    rcases joinAmp_mem (qp.map encodePair) x hx with h | ⟨l, hl, hxl⟩
    · subst h; exact ⟨by decide, by decide⟩
    · rw [List.mem_map] at hl
      obtain ⟨kv, _, hkv⟩ := hl
      rw [← hkv] at hxl
      unfold encodePair at hxl
      rw [List.mem_append] at hxl
      rcases hxl with h | h
      · exact ⟨quotePlusL_not_special _ 63 (by omega) x h,
          quotePlusL_not_special _ 35 (by omega) x h⟩
      · rw [List.mem_cons] at h
        rcases h with h | h
        · subst h; exact ⟨by decide, by decide⟩
        · exact ⟨quotePlusL_not_special _ 63 (by omega) x h,
            quotePlusL_not_special _ 35 (by omega) x h⟩
  rintro (h | h)
  · exact hne.1 (h ▸ (by decide))
  · exact hne.2 (h ▸ (by decide))

theorem splitScheme_snd_append (S rest : List Char)
    (hcolon : ∀ x ∈ S, ¬ x = ':') :
    (splitScheme (S ++ ':' :: rest)).2 =
      if validSchemePre S then rest else S ++ ':' :: rest := by
  unfold splitScheme
  rw [splitFirstP_append (fun c => c = ':') S ':' rest
    (fun x hx => decide_eq_false (hcolon x hx)) (by decide)]
  simp only []
  by_cases hv : validSchemePre S = true
  · rw [if_pos hv, if_pos hv]
  · rw [if_neg hv, if_neg hv]

theorem fragQuery_extract (B E : List Char)
    (hB : ∀ b ∈ B, ¬(b = '?' ∨ b = '#'))
    (hE : ∀ c ∈ E, ¬(c = '?' ∨ c = '#')) :
    (splitFirstP (fun c => c = '?')
      (splitFirstP (fun c => c = '#') (B ++ '?' :: E)).1).2 = some E ∧
    (splitFirstP (fun c => c = '#') (B ++ '?' :: E)).2 = none := by
  have hhash : splitFirstP (fun c => c = '#') (B ++ '?' :: E)
      = (B ++ '?' :: E, none) := by
    apply splitFirstP_none
    intro x hx
    apply decide_eq_false
    rcases List.mem_append.mp hx with h | h
    · exact fun he => (hB x h) (Or.inr he)
    · rcases List.mem_cons.mp h with h2 | h2
      · subst h2; decide
      · exact fun he => (hE x h2) (Or.inr he)
  constructor
  · rw [hhash]
    rw [show (B ++ '?' :: E, (none : Option (List Char))).1 = B ++ '?' :: E
      from rfl]
    rw [splitFirstP_append (fun c => c = '?') B '?' E
      (fun x hx => decide_eq_false (fun he => (hB x hx) (Or.inl he)))
      (by decide)]
  · rw [hhash]

theorem urlsplitL_rebuild (S N P E : List Char)
    (hS : ∀ c ∈ S, schemeChar c = true)
    (hN : ∀ c ∈ N, ¬(c = '/' ∨ c = '?' ∨ c = '#'))
    (hP : ∀ c ∈ P, ¬(c = '?' ∨ c = '#'))
    (hE : ∀ c ∈ E, ¬(c = '?' ∨ c = '#')) :
    (urlsplitL (S ++ ':' :: '/' :: '/' :: N ++ P ++ '?' :: E)).query = E ∧
    (urlsplitL (S ++ ':' :: '/' :: '/' :: N ++ P ++ '?' :: E)).fragment = [] := by
  have hshape : S ++ ':' :: '/' :: '/' :: N ++ P ++ '?' :: E
      = S ++ ':' :: ('/' :: ('/' :: (N ++ (P ++ '?' :: E)))) := by
    simp [List.cons_append, List.append_assoc]
  rw [hshape]
  have hA : ∃ A,
      (splitScheme (S ++ ':' :: ('/' :: ('/' :: (N ++ (P ++ '?' :: E)))))).2
      = A ++ '?' :: E ∧ ∀ a ∈ A, ¬(a = '?' ∨ a = '#') := by
    rw [splitScheme_snd_append S ('/' :: ('/' :: (N ++ (P ++ '?' :: E))))
      (fun x hx => (schemeChar_ne_special x (hS x hx)).1)]
    by_cases hv : validSchemePre S = true
    · rw [if_pos hv]
      refine ⟨'/' :: '/' :: (N ++ P), ?_, ?_⟩
      · simp [List.append_assoc]
      · intro a ha
        rcases List.mem_cons.mp ha with h | ha2
        · subst h; decide
        rcases List.mem_cons.mp ha2 with h | ha3
        · subst h; decide
        rcases List.mem_append.mp ha3 with h | h
        · exact fun hor => hN a h
            (hor.elim (fun h2 => Or.inr (Or.inl h2)) (fun h2 => Or.inr (Or.inr h2)))
        · exact hP a h
    · rw [if_neg hv]
      refine ⟨S ++ ':' :: '/' :: '/' :: (N ++ P), ?_, ?_⟩
      · simp [List.append_assoc]
      · intro a ha
        rcases List.mem_append.mp ha with h | ha2
        · exact fun hor => hor.elim
            (schemeChar_ne_special a (hS a h)).2.2.1
            (schemeChar_ne_special a (hS a h)).2.2.2
        rcases List.mem_cons.mp ha2 with h | ha3
        · subst h; decide
        rcases List.mem_cons.mp ha3 with h | ha4
        · subst h; decide
        rcases List.mem_cons.mp ha4 with h | ha5
        · subst h; decide
        rcases List.mem_append.mp ha5 with h | h
        · exact fun hor => hN a h
            (hor.elim (fun h2 => Or.inr (Or.inl h2)) (fun h2 => Or.inr (Or.inr h2)))
        · exact hP a h
  obtain ⟨A, hA2, hAfree⟩ := hA
  obtain ⟨B, hB2, hBfree⟩ := splitNetloc_keep A E hAfree
  have hfq := fragQuery_extract B E hBfree hE
  unfold urlsplitL
  simp only []
  rw [hA2, hB2]
  exact ⟨by rw [hfq.1]; rfl, by rw [hfq.2]; rfl⟩

theorem urlparse_part_chars (u : String) :
    (∀ c ∈ (urlparse u).scheme, schemeChar c = true) ∧
    (∀ c ∈ (urlparse u).netloc, ¬(c = '/' ∨ c = '?' ∨ c = '#')) ∧
    (∀ c ∈ (urlparse u).path, ¬(c = '?' ∨ c = '#')) := by
  obtain ⟨h1, h2, _, _⟩ := urlparseL_parts u.toList
  unfold urlparse
  refine ⟨?_, ?_, urlparseL_path_chars u.toList⟩
  · rw [h1]; exact urlsplitL_scheme_chars u.toList
  · rw [h2]; exact urlsplitL_netloc_chars u.toList

theorem urlparseL_rebuild_parts (pr : ParseResult) (qp : List (String × String))
    (hS : ∀ c ∈ pr.scheme, schemeChar c = true)
    (hN : ∀ c ∈ pr.netloc, ¬(c = '/' ∨ c = '?' ∨ c = '#'))
    (hP : ∀ c ∈ pr.path, ¬(c = '?' ∨ c = '#')) :
    (urlparse (rebuildUrl pr qp)).query = urlencodeL qp ∧
    (urlparse (rebuildUrl pr qp)).fragment = [] := by
  have hr := urlsplitL_rebuild pr.scheme pr.netloc pr.path (urlencodeL qp)
    hS hN hP (urlencodeL_no_qmark_hash qp)
  obtain ⟨_, _, h3, h4⟩ := urlparseL_parts
    (pr.scheme ++ ':' :: '/' :: '/' :: pr.netloc ++ pr.path ++
      '?' :: urlencodeL qp)
  unfold urlparse rebuildUrl
  rw [List.toList_asString]
  exact ⟨h3.trans hr.1, h4.trans hr.2⟩

/-! ## The final query dict has no duplicate keys, and its nonempty values
survive re-parsing -/

theorem collapseFirst_subset :
    ∀ (l : List (String × String)), ∀ kv ∈ collapseFirst l, kv ∈ l := by
  intro l
  induction l using collapseFirst.induct with
  | case1 =>
    intro kv hkv
    unfold collapseFirst at hkv
    exact absurd hkv (by simp)
  | case2 kv rest ih =>
    intro kv2 hkv2
    rw [collapseFirst_cons] at hkv2
    rcases List.mem_cons.mp hkv2 with h | h
    · exact h ▸ List.mem_cons_self _ _
    · exact List.mem_cons_of_mem _ (List.mem_of_mem_filter (ih kv2 h))

theorem collapseFirst_keys_nodup :
    ∀ (l : List (String × String)), ((collapseFirst l).map Prod.fst).Nodup := by
  intro l
  induction l using collapseFirst.induct with
  | case1 => unfold collapseFirst; simp
  | case2 kv rest ih =>
    rw [collapseFirst_cons, List.map_cons, List.nodup_cons]
    refine ⟨?_, ih⟩
    intro hmem
    rw [List.mem_map] at hmem
    obtain ⟨kv2, hkv2, hfst⟩ := hmem
    have h3 := List.of_mem_filter (collapseFirst_subset _ kv2 hkv2)
    rw [Bool.not_eq_true', beq_eq_false_iff_ne] at h3
    exact h3 hfst

theorem mem_keys_dictSet (k v : String) :
    ∀ (l : List (String × String)) (x : String),
      x ∈ (dictSet l k v).map Prod.fst → x ∈ l.map Prod.fst ∨ x = k := by
  intro l
  induction l with
  | nil =>
    intro x hx
    simp [dictSet] at hx
    exact Or.inr hx
  | cons kv rest ih =>
    intro x hx
    unfold dictSet at hx
    by_cases h : kv.1 = k
    · rw [if_pos h, List.map_cons, List.mem_cons] at hx
      rcases hx with hx | hx
      · exact Or.inr hx
      · exact Or.inl (by rw [List.map_cons, List.mem_cons]; exact Or.inr hx)
    · rw [if_neg h, List.map_cons, List.mem_cons] at hx
      rcases hx with hx | hx
      · exact Or.inl (by rw [List.map_cons, List.mem_cons]; exact Or.inl hx)
      · rcases ih x hx with h2 | h2
        · exact Or.inl (by rw [List.map_cons, List.mem_cons]; exact Or.inr h2)
        · exact Or.inr h2

theorem dictSet_keys_nodup (k v : String) :
    ∀ (l : List (String × String)), (l.map Prod.fst).Nodup →
      ((dictSet l k v).map Prod.fst).Nodup := by
  intro l
  induction l with
  | nil => intro _; simp [dictSet]
  | cons kv rest ih =>
    intro h
    rw [List.map_cons, List.nodup_cons] at h
    unfold dictSet
    by_cases hk : kv.1 = k
    · rw [if_pos hk, List.map_cons, List.nodup_cons]
      exact ⟨hk ▸ h.1, h.2⟩
    · rw [if_neg hk, List.map_cons, List.nodup_cons]
      refine ⟨?_, ih h.2⟩
      intro hmem
      rcases mem_keys_dictSet k v rest kv.1 hmem with h2 | h2
      · exact h.1 h2
      · exact hk h2

theorem collapseFirst_of_nodup :
    ∀ (l : List (String × String)), (l.map Prod.fst).Nodup →
      collapseFirst l = l := by
  intro l
  induction l using collapseFirst.induct with
  | case1 => intro _; unfold collapseFirst; rfl
  | case2 kv rest ih =>
    intro h
    rw [List.map_cons, List.nodup_cons] at h
    rw [collapseFirst_cons]
    have hfilt : rest.filter (fun kv2 => !(kv2.1 == kv.1)) = rest := by
      apply List.filter_eq_self.mpr
      intro kv2 hkv2
      rw [Bool.not_eq_true', beq_eq_false_iff_ne]
      intro he
      exact h.1 (he ▸ List.mem_map_of_mem Prod.fst hkv2)
    rw [hfilt] at ih
    rw [hfilt, ih h.2]

theorem dictGet_filter_val (k v : String) (hv : ¬ v = "") :
    ∀ (l : List (String × String)), dictGet l k = some v →
      dictGet (l.filter (fun kv => !(kv.2 == ""))) k = some v := by
  intro l
  induction l with
  | nil => intro h; exact absurd h (by simp [dictGet])
  | cons kv rest ih =>
    intro h
    rw [dictGet_cons] at h
    rw [List.filter_cons]
    by_cases hk : (kv.1 == k) = true
    · rw [if_pos hk] at h
      have hval : kv.2 = v := Option.some.inj h
      rw [if_pos (by rw [hval]; simpa using hv)]
      rw [dictGet_cons, if_pos hk, hval]
    · rw [if_neg hk] at h
      by_cases hkv2 : (kv.2 == "") = true
      · rw [if_neg (by simp [hkv2])]
        exact ih h
      · rw [if_pos (by simpa using hkv2)]
        rw [dictGet_cons, if_neg hk]
        exact ih h

theorem dictGet_filter_none (k : String) :
    ∀ (l : List (String × String)), dictGet l k = none →
      dictGet (l.filter (fun kv => !(kv.2 == ""))) k = none := by
  intro l
  induction l with
  | nil => intro _; rfl
  | cons kv rest ih =>
    intro h
    rw [dictGet_cons] at h
    by_cases hk : (kv.1 == k) = true
    · rw [if_pos hk] at h
      exact Option.noConfusion h
    · rw [if_neg hk] at h
      rw [List.filter_cons]
      by_cases h2 : (!(kv.2 == "")) = true
      · rw [if_pos h2, dictGet_cons, if_neg hk]
        exact ih h
      · rw [if_neg h2]
        exact ih h

theorem dictGet_collapse_parse_ne_empty (q : List Char) (k v : String)
    (h : dictGet (collapseValues (parse_qs q)) k = some v) : ¬ v = "" := by
  rw [collapse_parse_qs, dictGet_collapseFirst] at h
  have hmem := List.mem_of_mem_head? (by rw [Option.mem_def]; exact h)
  rw [List.mem_filterMap] at hmem
  obtain ⟨kv, hkv, hsel⟩ := hmem
  have hval : kv.2 = v := by
    by_cases hk2 : kv.1 = k
    · rw [if_pos hk2] at hsel
      exact Option.some.inj hsel
    · rw [if_neg hk2] at hsel
      exact Option.noConfusion hsel
  exact hval ▸ parse_qsl_val_ne q kv hkv

theorem urlParams_rebuild (pr : ParseResult) (qp : List (String × String))
    (hS : ∀ c ∈ pr.scheme, schemeChar c = true)
    (hN : ∀ c ∈ pr.netloc, ¬(c = '/' ∨ c = '?' ∨ c = '#'))
    (hP : ∀ c ∈ pr.path, ¬(c = '?' ∨ c = '#'))
    (hnod : (qp.map Prod.fst).Nodup) :
    urlParams (rebuildUrl pr qp) = qp.filter (fun kv => !(kv.2 == "")) := by
  unfold urlParams
  rw [(urlparseL_rebuild_parts pr qp hS hN hP).1]
  rw [collapse_parse_qs, parse_qsl_urlencodeL]
  apply collapseFirst_of_nodup
  exact ((List.filter_sublist qp).map Prod.fst).nodup hnod

/-! ## Unpacking a successful pass through one entry -/

theorem buildQueryParams_cases (c : CipherFns) (signature : String)
    (q : List Char) (qp : List (String × String))
    (h : buildQueryParams c signature q = .ok qp) :
    (hasKeyD (collapseValues (parse_qs q)) "ratebypass" = true ∧
      qp = dictSet (collapseValues (parse_qs q)) "sig" signature) ∨
    (hasKeyD (collapseValues (parse_qs q)) "ratebypass" = false ∧
      ∃ n0 newN, dictGet (collapseValues (parse_qs q)) "n" = some n0 ∧
        c.calculate_n n0.toList = .ok newN ∧
        qp = dictSet (dictSet (collapseValues (parse_qs q)) "sig" signature)
          "n" newN) := by
  unfold buildQueryParams at h
  simp only [] at h
  rw [hasKeyD_dictSet_ne "sig" signature "ratebypass" (by decide),
    dictGet_dictSet_ne "sig" signature "n" (by decide)] at h
  split at h
  · rename_i hrb
    exact Or.inl ⟨hrb, (Except.ok.inj h).symm⟩
  · rename_i hrb
    split at h
    · exact Except.noConfusion h
    · rename_i n0 hn
      split at h
      · exact Except.noConfusion h
      · rename_i newN hcn
        exact Or.inr ⟨by simpa using hrb, n0, newN, hn, hcn,
          (Except.ok.inj h).symm⟩

theorem descramble_ok (c : CipherFns) (e : StreamEntry) (u sTok : String)
    (p : StreamEntry × Option String)
    (h : descramble c e u sTok = .ok p) :
    ∃ qp, buildQueryParams c (c.get_signature sTok) (urlparse u).query = .ok qp ∧
      p = ({ e with url := some (rebuildUrl (urlparse u) qp) },
        some (rebuildUrl (urlparse u) qp)) := by
  unfold descramble at h
  simp only [] at h
  split at h
  · exact Except.noConfusion h
  · split at h
    · exact Except.noConfusion h
    · rename_i qp hqp
      exact ⟨qp, hqp, (Except.ok.inj h).symm⟩

theorem processWithUrl_ok (c : CipherFns) (e : StreamEntry) (u : String)
    (p : StreamEntry × Option String)
    (hskip : preSignedCheck e u = false)
    (h : processWithUrl c e u = .ok p) :
    ∃ sTok, e.s = some sTok ∧ descramble c e u sTok = .ok p := by
  unfold processWithUrl at h
  rw [if_neg (by rw [hskip]; exact Bool.false_ne_true)] at h
  cases hs : e.s with
  | none =>
    rw [hs] at h
    exact Except.noConfusion h
  | some sTok =>
    rw [hs] at h
    exact ⟨sTok, rfl, h⟩

theorem applySigAux_ok_entry (c : CipherFns) (live : Bool) :
    ∀ (m : List StreamEntry) (uv : Option String) (i : Nat)
      (hi : i < m.length) (u : String),
      (applySigAux c live uv m).err = none →
      (m.get ⟨i, hi⟩).url = some u →
      ∃ p, processWithUrl c (m.get ⟨i, hi⟩) u = .ok p ∧
        (applySigAux c live uv m).entries.getD i emptyEntry = p.1 := by
  intro m
  induction m with
  | nil =>
    intro uv i hi u _ _
    exact absurd hi (by simp)
  | cons e rest ih =>
    intro uv i hi u herr hu
    rw [applySigAux_cons] at herr ⊢
    cases hs : stepEntry c live uv e with
    | error er =>
      rw [hs] at herr
      exact Option.noConfusion herr
    | ok pr =>
      obtain ⟨e2, uv2⟩ := pr
      rw [hs] at herr
      simp only [] at herr ⊢
      cases i with
      | zero =>
        have hu0 : e.url = some u := hu
        rw [stepEntry_of_url c live uv e u hu0] at hs
        exact ⟨(e2, uv2), hs, rfl⟩
      | succ j =>
        have hj : j < rest.length := by
          rw [List.length_cons] at hi
          omega
        have hu' : (rest.get ⟨j, hj⟩).url = some u := hu
        obtain ⟨p, hp1, hp2⟩ := ih uv2 j hj u herr hu'
        exact ⟨p, hp1, hp2⟩

/-! # Claims -/

/-- Claim C1, counterexample: with a live video, a two-entry manifest whose
first entry is descrambled and whose second entry has no url makes
apply_signature raise the live-stream error, yet the first entry's url has
already been rewritten in place: the caller does observe a partially
patched manifest. -/
theorem claim1_counterexample :
    ((applySignatureWith ⟨fun s => "SIG" ++ s, fun _ => .ok "NN"⟩ true
        [⟨some "http://h/p?n=abc&x=1", some "tok", some "22"⟩,
          ⟨none, none, none⟩]).2).isSome = true ∧
    ¬ ((applySignatureWith ⟨fun s => "SIG" ++ s, fun _ => .ok "NN"⟩ true
        [⟨some "http://h/p?n=abc&x=1", some "tok", some "22"⟩,
          ⟨none, none, none⟩]).1.map StreamEntry.url =
      [⟨some "http://h/p?n=abc&x=1", some "tok", some "22"⟩,
        (⟨none, none, none⟩ : StreamEntry)].map StreamEntry.url) := by
  exact ⟨rfl, by decide⟩

/-- Claim C1, amended: every error surfaced while patching aborts
processing of the manifest at the failing entry: the manifest keeps its
length and the failing entry and every later entry are left untouched.
Entries processed before the error, however, keep their rewritten urls,
because the patching is in place. -/
theorem claim1_amended (c : CipherFns) (live : Bool) (m : List StreamEntry)
    (er : PyErr) (h : (applySignatureWith c live m).2 = some er) :
    (applySignatureWith c live m).1.length = m.length ∧
    ∃ k, k < m.length ∧
      (applySignatureWith c live m).1.drop k = m.drop k := by
  exact ⟨applySigAux_length c live m none,
    applySigAux_error_suffix c live m none er h⟩

/-- Witness for the amended claim C1 at a concrete manifest. -/
theorem claim1_witness :
    (applySignatureWith ⟨fun s => "SIG" ++ s, fun _ => .ok "NN"⟩ true
        [⟨some "http://h/p?n=abc&x=1", some "tok", some "22"⟩,
          ⟨none, none, none⟩]).1.length =
      ([⟨some "http://h/p?n=abc&x=1", some "tok", some "22"⟩,
        (⟨none, none, none⟩ : StreamEntry)] : List StreamEntry).length ∧
    ∃ k, k < ([⟨some "http://h/p?n=abc&x=1", some "tok", some "22"⟩,
        (⟨none, none, none⟩ : StreamEntry)] : List StreamEntry).length ∧
      (applySignatureWith ⟨fun s => "SIG" ++ s, fun _ => .ok "NN"⟩ true
          [⟨some "http://h/p?n=abc&x=1", some "tok", some "22"⟩,
            ⟨none, none, none⟩]).1.drop k =
        ([⟨some "http://h/p?n=abc&x=1", some "tok", some "22"⟩,
          (⟨none, none, none⟩ : StreamEntry)] : List StreamEntry).drop k :=
  claim1_amended _ true _ (.liveStream "UNKNOWN") rfl

/-- Claim C2: an entry with no url key and no s token raises
LiveStreamError("UNKNOWN") when the video status indicates a live stream
(provided processing reached that entry), and conversely a live-stream
error can only arise with a live status at an entry with no url: an entry
that carries a url, or a run with a non-live status, never produces a
live-stream error. -/
theorem claim2 (ci : Cipher) (live : Bool) (m₁ m₂ m : List StreamEntry)
    (e : StreamEntry) (r : String) :
    (e.url = none → e.s = none →
      (applySigAux ci.fns true none m₁).err = none →
      (applySignatureWith ci.fns true (m₁ ++ e :: m₂)).2 =
        some (.liveStream "UNKNOWN")) ∧
    ((applySignatureWith ci.fns live m).2 = some (.liveStream r) →
      live = true ∧ ∃ (p₁ : List StreamEntry) (e2 : StreamEntry)
        (p₂ : List StreamEntry), m = p₁ ++ e2 :: p₂ ∧
        (applySigAux ci.fns live none p₁).err = none ∧ e2.url = none) := by
  constructor
  · intro hu _hs hok
    show (applySigAux ci.fns true none (m₁ ++ e :: m₂)).err = _
    rw [applySigAux_append_ok ci.fns true m₁ (e :: m₂) none hok]
    simp only
    rw [applySigAux_cons, stepEntry_url_none_live ci.fns _ e hu]
  · intro h
    exact applySigAux_liveStream_source ci.fns live
      (fun l r2 => calculate_n_ne_liveStream ci l r2) m none r h

/-- Witness for claim C2 at a concrete manifest: one live entry with no url
and no s token. -/
theorem claim2_witness :
    (applySignatureWith (Cipher.fns ⟨[.reverse], none⟩) true
        [⟨none, none, none⟩]).2 = some (.liveStream "UNKNOWN") :=
  (claim2 ⟨[.reverse], none⟩ false [] [] [] ⟨none, none, none⟩ "").1
    rfl rfl rfl

/-- Claim C3: an entry whose url already carries a final signature (the url
contains "signature", or the entry has no s token and the url contains
"&sig=" or "&lsig=") is left byte-for-byte unchanged: its url after
apply_signature equals its url before. -/
theorem claim3 (c : CipherFns) (live : Bool) (m : List StreamEntry) (i : Nat)
    (hi : i < m.length) (hp : presignedEntry (m.get ⟨i, hi⟩) = true) :
    ((applySignatureWith c live m).1.getD i emptyEntry).url =
      (m.get ⟨i, hi⟩).url := by
  show ((applySigAux c live none m).entries.getD i emptyEntry).url = _
  rw [applySigAux_presigned_unchanged c live m none i hi hp]

/-- Witness for claim C3 at a concrete pre-signed entry. -/
theorem claim3_witness :
    ((applySignatureWith ⟨fun s => "SIG" ++ s, fun _ => .ok "NN"⟩ false
        [⟨some "http://h/p?a=1&signature=x", some "tok", some "22"⟩]).1.getD 0
      emptyEntry).url =
      (⟨some "http://h/p?a=1&signature=x", some "tok", some "22"⟩
        : StreamEntry).url :=
  claim3 ⟨fun s => "SIG" ++ s, fun _ => .ok "NN"⟩ false
    [⟨some "http://h/p?a=1&signature=x", some "tok", some "22"⟩] 0
    (by decide) (by decide)

/-- Claim C4: for a descrambled entry (its URL is present and it fails the
pre-signed skip test) of a successfully patched manifest, the n-transform is
applied exactly when ratebypass is absent from the URL's query parameters:
with ratebypass present the rewritten URL's n parameter keeps the original
URL's n value, and with ratebypass absent the original n value n0 was fed to
calculate_n and the rewritten URL's n parameter carries the transformed
value. -/
theorem claim4 (c : CipherFns) (live : Bool) (m : List StreamEntry)
    (i : Nat) (hi : i < m.length) (u : String)
    (hu : (m.get ⟨i, hi⟩).url = some u)
    (hskip : preSignedCheck (m.get ⟨i, hi⟩) u = false)
    (herr : (applySignatureWith c live m).2 = none) :
    ∃ u2, ((applySignatureWith c live m).1.getD i emptyEntry).url = some u2 ∧
      (urlHasParam u "ratebypass" = true →
        urlQueryParam u2 "n" = urlQueryParam u "n") ∧
      (urlHasParam u "ratebypass" = false →
        ∃ n0 newN, urlQueryParam u "n" = some n0 ∧
          c.calculate_n n0.toList = .ok newN ∧
          (¬ newN = "" → urlQueryParam u2 "n" = some newN)) := by
  have herr' : (applySigAux c live none m).err = none := herr
  obtain ⟨p, hp, hent⟩ := applySigAux_ok_entry c live m none i hi u herr' hu
  obtain ⟨sTok, hsv, hd⟩ := processWithUrl_ok c _ u p hskip hp
  obtain ⟨qp, hqp, hpeq⟩ := descramble_ok c _ u sTok p hd
  have hcase := buildQueryParams_cases c (c.get_signature sTok)
    (urlparse u).query qp hqp
  have hnod0 : ((collapseValues (parse_qs (urlparse u).query)).map
      Prod.fst).Nodup := by
    rw [collapse_parse_qs]
    exact collapseFirst_keys_nodup _
  have hnod : (qp.map Prod.fst).Nodup := by
    rcases hcase with ⟨_, hqpeq⟩ | ⟨_, _, _, _, _, hqpeq⟩
    · rw [hqpeq]
      exact dictSet_keys_nodup _ _ _ hnod0
    · rw [hqpeq]
      exact dictSet_keys_nodup _ _ _ (dictSet_keys_nodup _ _ _ hnod0)
  obtain ⟨hS, hN, hP⟩ := urlparse_part_chars u
  have hparams := urlParams_rebuild (urlparse u) qp hS hN hP hnod
  refine ⟨rebuildUrl (urlparse u) qp, ?_, ?_, ?_⟩
  · show ((applySigAux c live none m).entries.getD i emptyEntry).url = _
    rw [hent, hpeq]
  · intro hrb
    have hrb2 : hasKeyD (collapseValues (parse_qs (urlparse u).query))
        "ratebypass" = true := hrb
    rcases hcase with ⟨_, hqpeq⟩ | ⟨hrbf, _⟩
    · show dictGet (urlParams (rebuildUrl (urlparse u) qp)) "n" =
        dictGet (collapseValues (parse_qs (urlparse u).query)) "n"
      rw [hparams]
      have hget : dictGet qp "n" =
          dictGet (collapseValues (parse_qs (urlparse u).query)) "n" := by
        rw [hqpeq]
        exact dictGet_dictSet_ne "sig" (c.get_signature sTok) "n" (by decide) _
      cases hn : dictGet (collapseValues (parse_qs (urlparse u).query)) "n" with
      | none => rw [dictGet_filter_none "n" qp (hget.trans hn)]
      | some v =>
        rw [dictGet_filter_val "n" v
          (dictGet_collapse_parse_ne_empty _ "n" v hn) qp (hget.trans hn)]
    · exact absurd (hrbf.symm.trans hrb2) Bool.false_ne_true
  · intro hrb
    have hrb2 : hasKeyD (collapseValues (parse_qs (urlparse u).query))
        "ratebypass" = false := hrb
    rcases hcase with ⟨hrbt, _⟩ | ⟨_, n0, newN, hn0, hcn, hqpeq⟩
    · exact absurd (hrb2.symm.trans hrbt) Bool.false_ne_true
    · refine ⟨n0, newN, hn0, hcn, ?_⟩
      intro hne
      show dictGet (urlParams (rebuildUrl (urlparse u) qp)) "n" = some newN
      rw [hparams]
      have hget : dictGet qp "n" = some newN := by
        rw [hqpeq]
        exact dictGet_dictSet_self "n" newN _
      exact dictGet_filter_val "n" newN hne qp hget

/-- Witness for claim C4 at concrete inputs. -/
theorem claim4_witness :
    ∃ u2, ((applySignatureWith
        ⟨fun s => "SG" ++ s, fun l => .ok ("T" ++ l.asString)⟩ false
        [⟨some "http://h/p?a=1&a=2&n=abc#frag", some "tok",
          some "22"⟩]).1.getD 0 emptyEntry).url = some u2 ∧
      (urlHasParam "http://h/p?a=1&a=2&n=abc#frag" "ratebypass" = true →
        urlQueryParam u2 "n" =
          urlQueryParam "http://h/p?a=1&a=2&n=abc#frag" "n") ∧
      (urlHasParam "http://h/p?a=1&a=2&n=abc#frag" "ratebypass" = false →
        ∃ n0 newN,
          urlQueryParam "http://h/p?a=1&a=2&n=abc#frag" "n" = some n0 ∧
          (CipherFns.mk (fun s => "SG" ++ s)
            (fun l => .ok ("T" ++ l.asString))).calculate_n n0.toList
            = .ok newN ∧
          (¬ newN = "" → urlQueryParam u2 "n" = some newN)) :=
  claim4 ⟨fun s => "SG" ++ s, fun l => .ok ("T" ++ l.asString)⟩ false
    [⟨some "http://h/p?a=1&a=2&n=abc#frag", some "tok", some "22"⟩] 0
    (by decide) "http://h/p?a=1&a=2&n=abc#frag" (by decide) (by decide)
    (by decide)

/-- Claim C5: for a descrambled entry (URL present, s token present, not
pre-signed) of a successfully patched manifest, the entry's url is rewritten
and, whenever the descrambled signature is nonempty, the rewritten URL's sig
query parameter reads back as exactly the cipher's output on the entry's s
token. -/
theorem claim5 (c : CipherFns) (live : Bool) (m : List StreamEntry)
    (i : Nat) (hi : i < m.length) (u sTok : String)
    (hu : (m.get ⟨i, hi⟩).url = some u)
    (hs : (m.get ⟨i, hi⟩).s = some sTok)
    (hskip : preSignedCheck (m.get ⟨i, hi⟩) u = false)
    (herr : (applySignatureWith c live m).2 = none) :
    ∃ u2, ((applySignatureWith c live m).1.getD i emptyEntry).url = some u2 ∧
      (¬ c.get_signature sTok = "" →
        urlQueryParam u2 "sig" = some (c.get_signature sTok)) := by
  have herr' : (applySigAux c live none m).err = none := herr
  obtain ⟨p, hp, hent⟩ := applySigAux_ok_entry c live m none i hi u herr' hu
  obtain ⟨sTok2, hsv, hd⟩ := processWithUrl_ok c _ u p hskip hp
  have hst : sTok2 = sTok := Option.some.inj (hsv.symm.trans hs)
  subst hst
  obtain ⟨qp, hqp, hpeq⟩ := descramble_ok c _ u sTok2 p hd
  have hcase := buildQueryParams_cases c (c.get_signature sTok2)
    (urlparse u).query qp hqp
  have hnod0 : ((collapseValues (parse_qs (urlparse u).query)).map
      Prod.fst).Nodup := by
    rw [collapse_parse_qs]
    exact collapseFirst_keys_nodup _
  have hnod : (qp.map Prod.fst).Nodup := by
    rcases hcase with ⟨_, hqpeq⟩ | ⟨_, _, _, _, _, hqpeq⟩
    · rw [hqpeq]
      exact dictSet_keys_nodup _ _ _ hnod0
    · rw [hqpeq]
      exact dictSet_keys_nodup _ _ _ (dictSet_keys_nodup _ _ _ hnod0)
  obtain ⟨hS, hN, hP⟩ := urlparse_part_chars u
  have hparams := urlParams_rebuild (urlparse u) qp hS hN hP hnod
  refine ⟨rebuildUrl (urlparse u) qp, ?_, ?_⟩
  · show ((applySigAux c live none m).entries.getD i emptyEntry).url = _
    rw [hent, hpeq]
  · intro hne
    have hsig : dictGet qp "sig" = some (c.get_signature sTok2) := by
      rcases hcase with ⟨_, hqpeq⟩ | ⟨_, _, newN, _, _, hqpeq⟩
      · rw [hqpeq]
        exact dictGet_dictSet_self "sig" _ _
      · rw [hqpeq, dictGet_dictSet_ne "n" newN "sig" (by decide)]
        exact dictGet_dictSet_self "sig" _ _
    show dictGet (urlParams (rebuildUrl (urlparse u) qp)) "sig" =
      some (c.get_signature sTok2)
    rw [hparams]
    exact dictGet_filter_val "sig" (c.get_signature sTok2) hne qp hsig

/-- Witness for claim C5 at concrete inputs. -/
theorem claim5_witness :
    ∃ u2, ((applySignatureWith
        ⟨fun s => "SG" ++ s, fun l => .ok ("T" ++ l.asString)⟩ false
        [⟨some "http://h/p?a=1&a=2&n=abc#frag", some "tok",
          some "22"⟩]).1.getD 0 emptyEntry).url = some u2 ∧
      (¬ (CipherFns.mk (fun s => "SG" ++ s)
          (fun l => .ok ("T" ++ l.asString))).get_signature "tok" = "" →
        urlQueryParam u2 "sig" =
          some ((CipherFns.mk (fun s => "SG" ++ s)
            (fun l => .ok ("T" ++ l.asString))).get_signature "tok")) :=
  claim5 ⟨fun s => "SG" ++ s, fun l => .ok ("T" ++ l.asString)⟩ false
    [⟨some "http://h/p?a=1&a=2&n=abc#frag", some "tok", some "22"⟩] 0
    (by decide) "http://h/p?a=1&a=2&n=abc#frag" "tok" (by decide) (by decide)
    (by decide) (by decide)

/-- Claim C9: for a descrambled entry of a successfully patched manifest,
the rewritten URL is rebuilt from exactly the original URL's scheme, netloc,
path and re-encoded query dict; any fragment of the original URL is gone
(the rewritten URL parses with an empty fragment); and every query parameter
the patcher did not touch (neither sig nor n) reads back collapsed to the
first of its values in the original URL. -/
theorem claim9 (c : CipherFns) (live : Bool) (m : List StreamEntry)
    (i : Nat) (hi : i < m.length) (u : String)
    (hu : (m.get ⟨i, hi⟩).url = some u)
    (hskip : preSignedCheck (m.get ⟨i, hi⟩) u = false)
    (herr : (applySignatureWith c live m).2 = none) :
    ∃ qp, ((applySignatureWith c live m).1.getD i emptyEntry).url =
        some (rebuildUrl (urlparse u) qp) ∧
      (urlparse (rebuildUrl (urlparse u) qp)).fragment = [] ∧
      ∀ k, ¬ k = "sig" → ¬ k = "n" →
        urlQueryParam (rebuildUrl (urlparse u) qp) k =
          (urlParamValues u k).head? := by
  have herr' : (applySigAux c live none m).err = none := herr
  obtain ⟨p, hp, hent⟩ := applySigAux_ok_entry c live m none i hi u herr' hu
  obtain ⟨sTok, hsv, hd⟩ := processWithUrl_ok c _ u p hskip hp
  obtain ⟨qp, hqp, hpeq⟩ := descramble_ok c _ u sTok p hd
  have hcase := buildQueryParams_cases c (c.get_signature sTok)
    (urlparse u).query qp hqp
  have hnod0 : ((collapseValues (parse_qs (urlparse u).query)).map
      Prod.fst).Nodup := by
    rw [collapse_parse_qs]
    exact collapseFirst_keys_nodup _
  have hnod : (qp.map Prod.fst).Nodup := by
    rcases hcase with ⟨_, hqpeq⟩ | ⟨_, _, _, _, _, hqpeq⟩
    · rw [hqpeq]
      exact dictSet_keys_nodup _ _ _ hnod0
    · rw [hqpeq]
      exact dictSet_keys_nodup _ _ _ (dictSet_keys_nodup _ _ _ hnod0)
  obtain ⟨hS, hN, hP⟩ := urlparse_part_chars u
  have hparams := urlParams_rebuild (urlparse u) qp hS hN hP hnod
  refine ⟨qp, ?_, (urlparseL_rebuild_parts (urlparse u) qp hS hN hP).2, ?_⟩
  · show ((applySigAux c live none m).entries.getD i emptyEntry).url = _
    rw [hent, hpeq]
  · intro k hk1 hk2
    have hget : dictGet qp k =
        dictGet (collapseValues (parse_qs (urlparse u).query)) k := by
      rcases hcase with ⟨_, hqpeq⟩ | ⟨_, _, newN, _, _, hqpeq⟩
      · rw [hqpeq, dictGet_dictSet_ne "sig" (c.get_signature sTok) k hk1]
      · rw [hqpeq, dictGet_dictSet_ne "n" newN k hk2,
          dictGet_dictSet_ne "sig" (c.get_signature sTok) k hk1]
    have hrhs : dictGet (collapseValues (parse_qs (urlparse u).query)) k
        = (urlParamValues u k).head? := by
      rw [collapse_parse_qs, dictGet_collapseFirst]
      rfl
    show dictGet (urlParams (rebuildUrl (urlparse u) qp)) k =
      (urlParamValues u k).head?
    rw [hparams]
    cases hn : dictGet (collapseValues (parse_qs (urlparse u).query)) k with
    | none =>
      rw [dictGet_filter_none k qp (hget.trans hn), ← hrhs, hn]
    | some v =>
      rw [dictGet_filter_val k v
        (dictGet_collapse_parse_ne_empty _ k v hn) qp (hget.trans hn),
        ← hrhs, hn]

/-- Witness for claim C9 at concrete inputs. -/
theorem claim9_witness :
    ∃ qp, ((applySignatureWith
        ⟨fun s => "SG" ++ s, fun l => .ok ("T" ++ l.asString)⟩ false
        [⟨some "http://h/p?a=1&a=2&n=abc#frag", some "tok",
          some "22"⟩]).1.getD 0 emptyEntry).url =
        some (rebuildUrl (urlparse "http://h/p?a=1&a=2&n=abc#frag") qp) ∧
      (urlparse (rebuildUrl (urlparse "http://h/p?a=1&a=2&n=abc#frag")
        qp)).fragment = [] ∧
      ∀ k, ¬ k = "sig" → ¬ k = "n" →
        urlQueryParam (rebuildUrl
            (urlparse "http://h/p?a=1&a=2&n=abc#frag") qp) k =
          (urlParamValues "http://h/p?a=1&a=2&n=abc#frag" k).head? :=
  claim9 ⟨fun s => "SG" ++ s, fun l => .ok ("T" ++ l.asString)⟩ false
    [⟨some "http://h/p?a=1&a=2&n=abc#frag", some "tok", some "22"⟩] 0
    (by decide) "http://h/p?a=1&a=2&n=abc#frag" (by decide) (by decide)
    (by decide)

/-- Claim C6: apply_signature constructs exactly one Cipher per manifest,
before iterating the entries (the instrumented run counts one
construction whatever the manifest), and the whole run is a function of
that single cipher value: the instrumented run computes exactly
apply_signature. -/
theorem claim6 (m : List StreamEntry) (vidInfo : VidInfo) (js : String) :
    (apply_signatureCounted m vidInfo js).2 = 1 ∧
    (apply_signatureCounted m vidInfo js).1 = apply_signature m vidInfo js := by
  unfold apply_signatureCounted apply_signature
  cases h : Cipher.fromJs js with
  | error er => exact ⟨rfl, rfl⟩
  | ok ci =>
    simp only [applySigAuxCounted_spec ci.fns (isLiveStream vidInfo) m none 1]
    exact ⟨trivial, rfl⟩

/-- Claim C7: the fixed program [REVERSE, DROP_PREFIX(2), SWAP(3)] applied
to the token "abcdefgh" produces exactly "cedfba". -/
theorem claim7 :
    applySignature "abcdefgh" [.reverse, .dropStart 2, .swap 3] = "cedfba" := by
  rfl

/-- Claim C8: compilation and application are deterministic: compiling
equal script texts yields structurally equal compiled programs, and
applying the engine to equal tokens and equal programs yields equal
outputs. -/
theorem claim8 :
    (∀ js₁ js₂ : String, js₁ = js₂ → Cipher.fromJs js₁ = Cipher.fromJs js₂) ∧
    (∀ (t₁ t₂ : String) (p₁ p₂ : List Operation), t₁ = t₂ → p₁ = p₂ →
      applySignature t₁ p₁ = applySignature t₂ p₂) ∧
    (∀ (l₁ l₂ : List Char) (q₁ q₂ : List NTInstr), l₁ = l₂ → q₁ = q₂ →
      applyNTransform l₁ q₁ = applyNTransform l₂ q₂) :=
  ⟨fun _ _ h => by rw [h],
    fun _ _ _ _ h1 h2 => by rw [h1, h2],
    fun _ _ _ _ h1 h2 => by rw [h1, h2]⟩

/-- Witness for claim C8 at concrete inputs. -/
theorem claim8_witness :
    Cipher.fromJs "abc" = Cipher.fromJs "abc" ∧
    applySignature "tok" [.reverse] = applySignature "tok" [.reverse] :=
  ⟨claim8.1 "abc" "abc" rfl,
    claim8.2.1 "tok" "tok" [.reverse] [.reverse] rfl rfl⟩

/-- Claim C10: safe_filename returns a string of length at most max_length
containing no forbidden character (the listed punctuation and the control
characters 0 through 30). -/
theorem claim10 (s : String) (n : Nat) :
    (safe_filename s n).length ≤ n ∧
    ((safe_filename s n).toList.all
      (fun c => !forbiddenFilenameChar c)) = true := by
  constructor
  · show ((s.toList.filter (fun c => !forbiddenFilenameChar c)).take
      n).length ≤ n
    rw [List.length_take]
    omega
  · rw [List.all_eq_true]
    intro c hc
    have hmem : c ∈ s.toList.filter (fun c => !forbiddenFilenameChar c) :=
      List.take_subset _ _ hc
    exact (List.mem_filter.mp hmem).2

end PyTube
